import Mathlib

/-!
Verification of the EnterMedSchool glossary matching core
(`src/content/term-matcher.js` and the case-sensitivity classifier in
`src/background/service-worker.js`) against its specification.

Modelling conventions:
* JavaScript strings are modelled as `List Char` (sequences of Unicode code
  points).  This is exact for strings made of Basic-Multilingual-Plane
  characters, which covers every input the claims exercise.
* `String.prototype.toLowerCase`/`toUpperCase` are modelled characterwise by
  `Char.toLower`/`Char.toUpper`, exact on ASCII.
* The node graph of the automaton is represented as an arena: a list of
  nodes addressed by their index, with the root at index 0.  Child edges and
  failure links are stored as indices, mirroring the reference strategy for
  the cyclic fail-link graph.
-/

/-- A JavaScript string, as a list of code points. -/
abbrev Str := List Char

/-- Coerce a Lean string literal into the model type. -/
def str (s : String) : Str := s.data

/-- Characterwise model of `String.prototype.toLowerCase`. -/
def jsToLower (s : Str) : Str := s.map Char.toLower

/-- Characterwise model of `String.prototype.toUpperCase`. -/
def jsToUpper (s : Str) : Str := s.map Char.toUpper

/-! ## The Aho-Corasick automaton (class `AhoCorasick` in term-matcher.js) -/

/-- One automaton node (class `AhoCorasickNode`).  `children` is the insertion
ordered map from characters to child node indices; `fail` is the failure link
(`null` modelled as `none`); `output` is the list of patterns ending at this
node; `depth` is the trie depth. -/
structure ACNode where
  children : List (Char × Nat)
  fail : Option Nat
  output : List Str
  depth : Nat
deriving Repr, DecidableEq, Inhabited

/-- A fresh node, as produced by the `AhoCorasickNode` constructor. -/
def ACNode.new : ACNode := ⟨[], none, [], 0⟩

/-- The automaton: an arena of nodes (root at index 0) plus the `_built` flag. -/
structure AhoCorasick where
  nodes : List ACNode
  built : Bool
deriving Repr, DecidableEq, Inhabited

/-- A freshly constructed automaton: just the root node, not built. -/
def AhoCorasick.empty : AhoCorasick := ⟨[ACNode.new], false⟩

/-- Fetch the node stored at index `n` (callers only use valid indices). -/
def getN (nodes : List ACNode) (n : Nat) : ACNode := (nodes.get? n).getD ACNode.new

/-- Replace the node at index `n` by `f` of it, leaving other nodes unchanged. -/
def modN (f : ACNode → ACNode) : List ACNode → Nat → List ACNode
  | [], _ => []
  | x :: xs, 0 => f x :: xs
  | x :: xs, n + 1 => x :: modN f xs n

/-- `children.get(c)` on the insertion-ordered child map. -/
def lookupChild (children : List (Char × Nat)) (c : Char) : Option Nat :=
  (children.find? (fun p => p.1 = c)).map (·.2)

/-- The child of node `n` along character `c`, if any. -/
def childOf (nodes : List ACNode) (n : Nat) (c : Char) : Option Nat :=
  lookupChild (getN nodes n).children c

/-- Walk the trie edges from node `n` along the characters of `w`. -/
def follow (nodes : List ACNode) (n : Nat) : Str → Option Nat
  | [] => some n
  | c :: w =>
    match childOf nodes n c with
    | some m => follow nodes m w
    | none => none

/-- Core of `addPattern`: descend from node `n` along the (already lowercased)
pattern, creating missing nodes, returning the arena and the terminal index. -/
def insertFrom (nodes : List ACNode) (n : Nat) : Str → List ACNode × Nat
  | [] => (nodes, n)
  | c :: rest =>
    match childOf nodes n c with
    | some m => insertFrom nodes m rest
    | none =>
      let newIdx := nodes.length
      let nodes := nodes ++ [{ ACNode.new with depth := (getN nodes n).depth + 1 }]
      let nodes := modN (fun nd => { nd with children := nd.children ++ [(c, newIdx)] }) nodes n
      insertFrom nodes newIdx rest

/-- `addPattern(pattern)`: falsy (empty) patterns are ignored; otherwise the
lowercased pattern is inserted into the trie, appended to the terminal node's
output list, and the built flag is cleared. -/
def AhoCorasick.addPattern (ac : AhoCorasick) (pattern : Str) : AhoCorasick :=
  if pattern = [] then ac
  else
    let lowerPattern := jsToLower pattern
    let (nodes, last) := insertFrom ac.nodes 0 lowerPattern
    ⟨modN (fun nd => { nd with output := nd.output ++ [lowerPattern] }) nodes last, false⟩

/-- `addPatterns(patterns)`: add each pattern in order. -/
def AhoCorasick.addPatterns (ac : AhoCorasick) (patterns : List Str) : AhoCorasick :=
  patterns.foldl AhoCorasick.addPattern ac

/-- The while-loop of `build`: follow failure links from `fail` until a node
with a `c`-edge is found; return that node's `c`-child, or the root (0) if the
chain runs out (`fail` became `null`).  `fuel` bounds the chain length. -/
def chaseFail (nodes : List ACNode) (c : Char) : Nat → Option Nat → Nat
  | _, none => 0
  | 0, some _ => 0
  | fuel + 1, some f =>
    match lookupChild (getN nodes f).children c with
    | some m => m
    | none => chaseFail nodes c fuel (getN nodes f).fail

/-- Body of the BFS inner loop for one child edge `(c, child)` of `cur`:
compute the child's failure link from `cur`'s, store it, and merge the fail
target's output into the child's output. -/
def processChild (nodes : List ACNode) (cur : Nat) (cc : Char × Nat) : List ACNode :=
  let f := chaseFail nodes cc.1 nodes.length (getN nodes cur).fail
  modN (fun nd => { nd with fail := some f, output := nd.output ++ (getN nodes f).output })
    nodes cc.2

/-- Process one dequeued node: handle each of its child edges in order and
return the children to enqueue. -/
def processCurrent (nodes : List ACNode) (cur : Nat) : List ACNode × List Nat :=
  let cs := (getN nodes cur).children
  (cs.foldl (fun ns cc => processChild ns cur cc) nodes, cs.map (·.2))

/-- The BFS over the queue.  `fuel` bounds the number of dequeues. -/
def bfsLoop : Nat → List Nat → List ACNode → List ACNode
  | 0, _, nodes => nodes
  | _ + 1, [], nodes => nodes
  | fuel + 1, cur :: rest, nodes =>
    let p := processCurrent nodes cur
    bfsLoop fuel (rest ++ p.2) p.1

/-- `build()`: no-op when already built; otherwise point the failure links of
the root's children at the root, then BFS to set failure links and merge
outputs, and set the built flag. -/
def AhoCorasick.build (ac : AhoCorasick) : AhoCorasick :=
  if ac.built then ac
  else
    let rootChildren := (getN ac.nodes 0).children.map (·.2)
    let nodes := rootChildren.foldl
      (fun ns i => modN (fun nd => { nd with fail := some 0 }) ns i) ac.nodes
    ⟨bfsLoop ac.nodes.length rootChildren nodes, true⟩

/-- One raw match record `{start, end, pattern}` reported by `search`.
`endPos` models the JS field `end` (a Lean keyword). -/
structure RawMatch where
  start : Nat
  endPos : Nat
  pattern : Str
deriving Repr, DecidableEq, Inhabited

/-- The while-loop of `search`: from the current node (inclusive), follow
failure links until a node with a `c`-edge is found; `none` models the dead
end where the chain runs out. -/
def chaseNode (nodes : List ACNode) (c : Char) : Nat → Option Nat → Option Nat
  | _, none => none
  | 0, some _ => none
  | fuel + 1, some n =>
    if (lookupChild (getN nodes n).children c).isSome then some n
    else chaseNode nodes c fuel (getN nodes n).fail

/-- The scanning loop of `search` over the lowercased text, from position `i`
at automaton node `node`. -/
def searchGo (nodes : List ACNode) (fuel : Nat) : Str → Nat → Nat → List RawMatch
  | [], _, _ => []
  | c :: rest, i, node =>
    match chaseNode nodes c fuel (some node) with
    | none => searchGo nodes fuel rest (i + 1) 0
    | some n =>
      let child := (lookupChild (getN nodes n).children c).getD 0
      ((getN nodes child).output.map fun p => RawMatch.mk (i + 1 - p.length) (i + 1) p)
        ++ searchGo nodes fuel rest (i + 1) child

/-- `search(text)`: build if needed, then scan the lowercased text from the
root, emitting one record per output pattern at each visited node. -/
def AhoCorasick.search (ac : AhoCorasick) (text : Str) : List RawMatch :=
  let ac := ac.build
  searchGo ac.nodes ac.nodes.length (jsToLower text) 0 0

/-! ## Shared constants (shared/constants.js) -/

/-- `EXCLUDED_PATTERNS`: patterns to always exclude. -/
def EXCLUDED_PATTERNS : List Str := [str "an", str "as", str "be", str "he", str "is"]

/-! ## The term matcher policy layer (class `TermMatcher` in term-matcher.js)

`BETA_TERM_LEVELS` is imported by term-matcher.js from `shared/constants.js`,
but the constants file present in the sources does not define it.  Modelled
from the spec: the constant is the set of term levels belonging to the
experimental/opt-in feature set; the spec fixes no concrete contents, so the
development is parameterised by the list (written `BETA` below). -/

/-- Per-pattern case metadata `{isCaseSensitive, originalCase}`; `none` models
a `null` `originalCase`. -/
structure PatternMeta where
  isCaseSensitive : Bool
  originalCase : Option Str
deriving Repr, DecidableEq, Inhabited

/-- Per-term metadata as consulted by the matcher; only the `level` field is
read (`none` models an absent/null level). -/
structure TermMeta where
  level : Option Str
deriving Repr, DecidableEq, Inhabited

/-- The external, read-only term index: the three lookups the core consumes.
`terms` returns `none` both for a missing entry and for a missing map
(`this.index.terms?.get(termId)`). -/
structure TermIndex where
  getAllPatterns : List Str
  getTermIdsForPattern : Str → List Str
  getPatternMetadata : Str → Option PatternMeta
  terms : Str → Option TermMeta

/-- The matcher state.  `initDone` models the JS field `_initialized`. -/
structure TermMatcher where
  index : TermIndex
  automaton : AhoCorasick
  initDone : Bool
  userLevel : Str
  enableBetaFeatures : Bool

/-- `createTermMatcher(index)` / the `TermMatcher` constructor. -/
def createTermMatcher (index : TermIndex) : TermMatcher :=
  ⟨index, AhoCorasick.empty, false, str "medschool", false⟩

/-- `setUserLevel(level)`: a falsy level (null, undefined, or the empty
string, the three falsy string-or-missing values) resets to `'medschool'`. -/
def TermMatcher.setUserLevel (tm : TermMatcher) (level : Option Str) : TermMatcher :=
  { tm with userLevel := match level with
      | some l => if l = [] then str "medschool" else l
      | none => str "medschool" }

/-- `setBetaFeatures(enabled)`. -/
def TermMatcher.setBetaFeatures (tm : TermMatcher) (enabled : Bool) : TermMatcher :=
  { tm with enableBetaFeatures := enabled }

/-- `initialize()`: on first use add every index pattern to the automaton and
build it. -/
def TermMatcher.initAutomaton (tm : TermMatcher) : TermMatcher :=
  if tm.initDone then tm
  else
    { tm with automaton := (tm.automaton.addPatterns tm.index.getAllPatterns).build,
              initDone := true }

/-- `LEVEL_HIERARCHY`: the three known audience levels and their values. -/
def LEVEL_HIERARCHY (s : Str) : Option Nat :=
  if s = str "premed" then some 0
  else if s = str "medschool" then some 1
  else if s = str "all" then some 2
  else none

/-- `_filterByLevel(termIds)`, parameterised by the `BETA_TERM_LEVELS` list. -/
def TermMatcher.filterByLevel (BETA : List Str) (tm : TermMatcher) (termIds : List Str) :
    List Str :=
  termIds.filter fun termId =>
    match tm.index.terms termId with
    | none => true
    | some termMeta =>
      let termLevel := match termMeta.level with
        | some l => if l = [] then str "medschool" else l
        | none => str "medschool"
      if BETA.contains termLevel && !tm.enableBetaFeatures then false
      else
        let effectiveLevel := if tm.userLevel = str "all" then str "medschool" else tm.userLevel
        let userLevelValue := (LEVEL_HIERARCHY effectiveLevel).getD 1
        let termLevelValue := (LEVEL_HIERARCHY termLevel).getD 1
        if termLevelValue ≠ userLevelValue then false else true

/-- `_isValidCaseMatch(text, start, end, pattern)`.  The falsy test
`!originalCase` accepts both `null` (`none`) and the empty string. -/
def TermMatcher.isValidCaseMatch (tm : TermMatcher) (text : Str) (s e : Nat) (pattern : Str) :
    Bool :=
  match tm.index.getPatternMetadata pattern with
  | none => true
  | some patternMeta =>
    if !patternMeta.isCaseSensitive then true
    else
      match patternMeta.originalCase with
      | none => true
      | some originalCase =>
        if originalCase = [] then true
        else (text.take e).drop s = originalCase

/-- `_isWordChar(char)`: the regex `/[a-zA-Z0-9]/` — ASCII letters/digits. -/
def isWordChar (c : Char) : Bool := c.isAlpha || c.isDigit

/-- `_isWordBoundaryMatch(text, start, end)`.  `text[k]` on an out-of-range
index yields `undefined`, whose string coercion the regex accepts as a word
character; that branch (`none => false`) is unreachable for automaton hits. -/
def isWordBoundaryMatch (text : Str) (s e : Nat) : Bool :=
  (if s > 0 then
    match text.get? (s - 1) with
    | some prevChar => !isWordChar prevChar
    | none => false
  else true) &&
  (if e < text.length then
    match text.get? e with
    | some nextChar => !isWordChar nextChar
    | none => false
  else true)

/-- An accepted (pre-overlap-resolution) match `{start, end, pattern, termIds}`. -/
structure ValidMatch where
  start : Nat
  endPos : Nat
  pattern : Str
  termIds : List Str
deriving Repr, DecidableEq, Inhabited

/-- A final match `{start, end, termIds}` as returned by `findTerms`. -/
structure OutMatch where
  start : Nat
  endPos : Nat
  termIds : List Str
deriving Repr, DecidableEq, Inhabited

/-- The filtering loop of `findTerms`: keep a raw hit only if its pattern is
not excluded, it lies on word boundaries, it passes the case check, its
pattern resolves to a nonempty term-id list, and level filtering leaves some
ids. -/
def TermMatcher.validMatches (BETA : List Str) (tm : TermMatcher) (text : Str) :
    List ValidMatch :=
  (tm.automaton.search text).filterMap fun r =>
    if r.pattern ∈ EXCLUDED_PATTERNS then none
    else if !isWordBoundaryMatch text r.start r.endPos then none
    else if !tm.isValidCaseMatch text r.start r.endPos r.pattern then none
    else
      let termIds := tm.index.getTermIdsForPattern r.pattern
      if termIds = [] then none
      else
        let filteredTermIds := TermMatcher.filterByLevel BETA tm termIds
        if filteredTermIds = [] then none
        else some ⟨r.start, r.endPos, r.pattern, filteredTermIds⟩

/-- The sort comparator of `_removeOverlaps`, as the strict "comes before"
relation (comparator result `< 0`): ascending start, then descending span. -/
def matchBefore (a b : ValidMatch) : Bool :=
  if a.start ≠ b.start then a.start < b.start
  else (b.endPos - b.start) < (a.endPos - a.start)

/-- Insert `x` after every element not strictly after it (stable insertion). -/
def insertSorted (before : α → α → Bool) (x : α) : List α → List α
  | [] => [x]
  | y :: ys => if before x y then x :: y :: ys else y :: insertSorted before x ys

/-- Model of `Array.prototype.sort` with a consistent comparator: ECMAScript
requires the stable sorted permutation, which this insertion sort computes. -/
def jsSort (before : α → α → Bool) (l : List α) : List α :=
  l.foldl (fun acc x => insertSorted before x acc) []

/-- The greedy scan of `_removeOverlaps`: keep a match only if its start is at
or past the end of the last kept match (`lastEnd` starts at `-1`). -/
def overlapsGo : List ValidMatch → Int → List ValidMatch
  | [], _ => []
  | m :: rest, lastEnd =>
    if (m.start : Int) < lastEnd then overlapsGo rest lastEnd
    else m :: overlapsGo rest (m.endPos : Int)

/-- `_removeOverlaps(matches)`. -/
def TermMatcher.removeOverlaps (ms : List ValidMatch) : List ValidMatch :=
  if ms = [] then []
  else overlapsGo (jsSort matchBefore ms) (-1)

/-- `findTerms(text)`: initialize lazily, return `[]` for empty text or no raw
matches, filter hits, resolve overlaps, and strip the pattern field. -/
def TermMatcher.findTerms (BETA : List Str) (tm : TermMatcher) (text : Str) : List OutMatch :=
  let tm := tm.initAutomaton
  if text = [] then []
  else if tm.automaton.search text = [] then []
  else
    (TermMatcher.removeOverlaps (TermMatcher.validMatches BETA tm text)).map
      fun m => ⟨m.start, m.endPos, m.termIds⟩

/-! ## Case-sensitivity classification (`shouldBeCaseSensitive`, service-worker.js) -/

/-- Whitespace removed by `String.prototype.trim` (the ASCII white space and
line terminator characters plus NBSP; exact on the inputs considered here). -/
def isJsWhitespace (c : Char) : Bool :=
  c = ' ' || c = '\t' || c = '\n' || c = '\x0b' || c = '\x0c' || c = '\r' || c = Char.ofNat 160

/-- Characterwise model of `String.prototype.trim`. -/
def jsTrim (s : Str) : Str :=
  ((s.dropWhile isJsWhitespace).reverse.dropWhile isJsWhitespace).reverse

/-- The regex test `/[A-Z]/.test(s)`. -/
def hasAsciiUpper (s : Str) : Bool := s.any fun c => 'A' ≤ c && c ≤ 'Z'

/-- The regex test `/^[a-z]+$/.test(s)` (callers guard nonemptiness). -/
def allLowerAlpha (s : Str) : Bool := s.all fun c => 'a' ≤ c && c ≤ 'z'

/-- The sentence-case test `s[0] === s[0].toUpperCase() &&
s.slice(1) === s.slice(1).toLowerCase()`; the empty case is unreachable
because callers guard with `/[A-Z]/.test(s)`. -/
def isSentenceCase : Str → Bool
  | [] => true
  | h :: t => h = h.toUpper && t = jsToLower t

/-- The `commonWords` set literal of `shouldBeCaseSensitive` (kept verbatim,
including the duplicated `'old'`; `Set` membership is unaffected). -/
def commonWords : List Str :=
  [str "the", str "and", str "but", str "for", str "not", str "you", str "all", str "can",
   str "had", str "her", str "was", str "one", str "our", str "out", str "are", str "has",
   str "his", str "how", str "its", str "may", str "new", str "now", str "old", str "see",
   str "way", str "who", str "boy", str "did", str "get", str "let", str "put", str "say",
   str "she", str "too", str "use", str "red", str "flu", str "arm", str "leg", str "ear",
   str "eye", str "jaw", str "lip", str "rib", str "gum", str "fat", str "gut", str "hip",
   str "toe", str "wet", str "dry", str "hot", str "raw", str "old"]

/-- `shouldBeCaseSensitive(pattern, original, isFromAbbr)` from
service-worker.js, returning `{isCaseSensitive, originalCase}`. -/
def shouldBeCaseSensitive (pattern original : Str) (isFromAbbr : Bool) : PatternMeta :=
  let normalized := jsToLower (jsTrim pattern)
  let originalStripped := jsTrim original
  if normalized ∈ EXCLUDED_PATTERNS then ⟨false, none⟩
  else if isFromAbbr && normalized.length ≤ 6 then ⟨true, some (jsToUpper originalStripped)⟩
  else if normalized.length ≤ 4 && originalStripped = jsToUpper originalStripped then
    ⟨true, some originalStripped⟩
  else if normalized.length ≤ 6 && hasAsciiUpper originalStripped then
    if !isSentenceCase originalStripped then ⟨true, some originalStripped⟩
    else if 2 ≤ normalized.length && normalized.length ≤ 4 && allLowerAlpha normalized
        && !(commonWords.contains normalized) then ⟨true, some (jsToUpper normalized)⟩
    else ⟨false, none⟩
  else if 2 ≤ normalized.length && normalized.length ≤ 4 && allLowerAlpha normalized
      && !(commonWords.contains normalized) then ⟨true, some (jsToUpper normalized)⟩
  else ⟨false, none⟩

/-- The rule cascade exactly as the spec words it (§4.2), over an
already-normalized pattern `p`, its original form `o`, and the
is-from-abbreviation flag.  Used to compare `shouldBeCaseSensitive` against
the spec. -/
def caseCascadeSpec (p o : Str) (isFromAbbr : Bool) : PatternMeta :=
  if p ∈ EXCLUDED_PATTERNS then ⟨false, none⟩
  else if isFromAbbr && p.length ≤ 6 then ⟨true, some (jsToUpper o)⟩
  else if p.length ≤ 4 && o = jsToUpper o then ⟨true, some o⟩
  else if p.length ≤ 6 && hasAsciiUpper o && !isSentenceCase o then ⟨true, some o⟩
  else if 2 ≤ p.length && p.length ≤ 4 && allLowerAlpha p && !(commonWords.contains p) then
    ⟨true, some (jsToUpper p)⟩
  else ⟨false, none⟩

/-! ## JavaScript value model for the insertion no-op claim -/

/-- The JavaScript values a caller could pass as a pattern. -/
inductive JSVal where
  | vstr (s : Str)
  | vnum (n : Int)
  | vbool (b : Bool)
  | vnull
  | vundef
deriving Repr, DecidableEq

/-- JavaScript falsiness for the modelled values. -/
def JSVal.isFalsy : JSVal → Bool
  | .vstr s => s = []
  | .vnum n => n = 0
  | .vbool b => !b
  | .vnull => true
  | .vundef => true

/-- `addPattern(pattern)` on an arbitrary JavaScript value: falsy values are
ignored by the `if (!pattern) return` guard; a truthy non-string then hits
`pattern.toLowerCase()`, which throws a `TypeError` (modelled as `.error`). -/
def addPatternJS (ac : AhoCorasick) : JSVal → Except Unit AhoCorasick
  | .vstr s => .ok (ac.addPattern s)
  | v => if v.isFalsy then .ok ac else .error ()

/-- Word character as the spec's §4.3 words it: letter, digit, or underscore
(restricted to ASCII letters and digits, which is all the claims exercise;
the spec's class is a superset of this one). -/
def wordCharSpec (c : Char) : Bool := c.isAlpha || c.isDigit || c = '_'

/-! ## Concrete term indexes used as test fixtures -/

/-- Index with the single case-sensitive pattern `"chf"` requiring `"CHF"`. -/
def idxCHF : TermIndex where
  getAllPatterns := [str "chf"]
  getTermIdsForPattern := fun p => if p = str "chf" then [str "t1"] else []
  getPatternMetadata := fun p => if p = str "chf" then some ⟨true, some (str "CHF")⟩ else none
  terms := fun i => if i = str "t1" then some ⟨some (str "medschool")⟩ else none

/-- Index with the single pattern `"mi"` and no pattern metadata. -/
def idxMI : TermIndex where
  getAllPatterns := [str "mi"]
  getTermIdsForPattern := fun p => if p = str "mi" then [str "t1"] else []
  getPatternMetadata := fun _ => none
  terms := fun _ => none

/-- Index whose pattern `"mi"` is marked case sensitive with an *empty string*
as required casing. -/
def idxCaseEmpty : TermIndex where
  getAllPatterns := [str "mi"]
  getTermIdsForPattern := fun p => if p = str "mi" then [str "t1"] else []
  getPatternMetadata := fun p => if p = str "mi" then some ⟨true, some []⟩ else none
  terms := fun _ => none

/-- Index mapping the excluded pattern `"as"` to a term id. -/
def idxAS : TermIndex where
  getAllPatterns := [str "as"]
  getTermIdsForPattern := fun p => if p = str "as" then [str "t1"] else []
  getPatternMetadata := fun _ => none
  terms := fun _ => none

/-- Index with pattern `"mi"` whose term `"t1"` carries the given level. -/
def termLevelIndex (lvl : Str) : TermIndex where
  getAllPatterns := [str "mi"]
  getTermIdsForPattern := fun p => if p = str "mi" then [str "t1"] else []
  getPatternMetadata := fun _ => none
  terms := fun i => if i = str "t1" then some ⟨some lvl⟩ else none

/-- All output lists in the arena contain only nonempty patterns (an
invariant of every automaton reachable through the public interface). -/
def NEOut (nodes : List ACNode) : Prop :=
  ∀ n : Nat, ∀ p ∈ (getN nodes n).output, p ≠ []

/-- A matcher as reachable through the public interface: constructed from an
index, then configured via `setUserLevel` and `setBetaFeatures`. -/
def mkMatcher (idx : TermIndex) (ul : Option Str) (fl : Bool) : TermMatcher :=
  ((createTermMatcher idx).setUserLevel ul).setBetaFeatures fl

/-- The arena index of the node reached by `w` from the root (0 if none). -/
def nodeAt (nodes : List ACNode) (w : Str) : Nat := (follow nodes 0 w).getD 0

/-- The longest suffix of `w` (inclusive) that is a path of the trie. -/
def longestPathSuffix (nodes : List ACNode) (w : Str) : Str :=
  (w.tails.find? (fun v => (follow nodes 0 v).isSome)).getD []

/-- The longest *proper* suffix of `w` that is a path of the trie: for a
nonempty `w` these are exactly the suffixes of its tail.  This is the
destination the failure link of the node at `w` must point to. -/
def lps (nodes : List ACNode) : Str → Str
  | [] => []
  | _ :: t => longestPathSuffix nodes t

/-- Well-formedness of a pre-build trie, established by `addPattern` starting
from the empty automaton: the arena is a rooted tree whose edges respect
bounds, avoid the root, and have a unique parent; child maps have distinct
keys; the root has no output; no failure link is set; and every output entry
at a node spells that node's path. -/
structure TrieWF (nodes : List ACNode) : Prop where
  size_pos : 0 < nodes.length
  edge_lt : ∀ n c m, childOf nodes n c = some m → m < nodes.length ∧ m ≠ 0
  parent_unique : ∀ n c n' c' m, childOf nodes n c = some m → childOf nodes n' c' = some m →
    n = n' ∧ c = c'
  keys_nodup : ∀ n, ((getN nodes n).children.map Prod.fst).Nodup
  root_output : (getN nodes 0).output = []
  fail_none : ∀ n, (getN nodes n).fail = none
  out_mem : ∀ w n, follow nodes 0 w = some n → ∀ p ∈ (getN nodes n).output, p = w

/-- A case-insensitive occurrence of `p` in `t` whose last character sits at
index `i` (both strings already lowercased by the caller). -/
def occursEndingAt (p t : Str) (i : Nat) : Prop :=
  p ≠ [] ∧ p.length ≤ i + 1 ∧ i < t.length ∧
    (t.drop (i + 1 - p.length)).take p.length = p

/-- The build step rewires only failure links and outputs: lengths, child
maps, and the root node itself are untouched. -/
def StructEq (base cur : List ACNode) : Prop :=
  cur.length = base.length ∧ (∀ n, (getN cur n).children = (getN base n).children) ∧
    getN cur 0 = getN base 0

/-- One node-creation step of `insertFrom`: append a fresh node and register
it as the `c`-child of node `n`. -/
def insertStep (nodes : List ACNode) (n : Nat) (c : Char) : List ACNode :=
  modN (fun nd => { nd with children := nd.children ++ [(c, nodes.length)] })
    (nodes ++ [{ ACNode.new with depth := (getN nodes n).depth + 1 }]) n

/-- The pattern `q` is recorded in the trie: its node exists and holds `q`. -/
def InOut (nodes : List ACNode) (q : Str) : Prop :=
  ∃ m, follow nodes 0 q = some m ∧ q ∈ (getN nodes m).output

/-- All trie paths from node `n` of length at most `fuel` (used to bound the
number of BFS dequeues). -/
def subPaths (nodes : List ACNode) : Nat → Nat → List Str
  | 0, _ => [[]]
  | fuel + 1, n =>
    [] :: (getN nodes n).children.flatMap
      (fun cc => (subPaths nodes fuel cc.2).map (cc.1 :: ·))

/-- The post-build contract at one path `w`: the failure link of its node
points at the longest proper path-suffix of `w`, and its output is its
pre-build output followed by the output at that failure target. -/
def FailsOut (base cur : List ACNode) (w : Str) : Prop :=
  (getN cur (nodeAt base w)).fail = some (nodeAt base (lps base w)) ∧
  (getN cur (nodeAt base w)).output = (getN base (nodeAt base w)).output ++
    (getN cur (nodeAt base (lps base w))).output

/-- The invariant of the BFS of `build` over the pre-build arena `base`:
`A` lists the queued paths at the current depth `d`, `B` the queued paths at
depth `d + 1` (exactly the children of already-processed depth-`d` nodes),
`P` the pending deeper paths; processed nodes satisfy `FailsOut`, untouched
nodes still hold their `base` values. -/
def BfsInv (base : List ACNode) (d : Nat) (A B P : List Str)
    (cur : List ACNode) : Prop :=
  1 ≤ d ∧
  StructEq base cur ∧
  (∀ w ∈ A, (follow base 0 w).isSome ∧ w.length = d) ∧
  (∀ w ∈ B, (follow base 0 w).isSome ∧ w.length = d + 1) ∧
  (∀ w : Str, (follow base 0 w).isSome → w.length = d + 1 → (w ∈ B ↔ w.dropLast ∉ A)) ∧
  (∀ w : Str, (follow base 0 w).isSome → 1 ≤ w.length → (w.length ≤ d ∨ w ∈ B) →
    FailsOut base cur w) ∧
  (∀ w : Str, (follow base 0 w).isSome → 1 ≤ w.length → ¬(w.length ≤ d ∨ w ∈ B) →
    getN cur (nodeAt base w) = getN base (nodeAt base w)) ∧
  (∀ w : Str, (follow base 0 w).isSome → 1 ≤ w.length →
    (w ∈ P ↔ (d + 1 ≤ w.length ∧ w ∉ B))) ∧
  (∀ w ∈ P, (follow base 0 w).isSome ∧ 1 ≤ w.length) ∧
  A.Nodup ∧ B.Nodup ∧ P.Nodup

/-- The post-BFS state: structure unchanged and `FailsOut` at every nonempty
path. -/
def BfsDone (base fin : List ACNode) : Prop :=
  StructEq base fin ∧
  ∀ w : Str, (follow base 0 w).isSome → 1 ≤ w.length → FailsOut base fin w

/-! ## Arena helper lemmas -/

theorem modN_length (f : ACNode → ACNode) : ∀ (l : List ACNode) (n : Nat),
    (modN f l n).length = l.length
  | [], _ => rfl
  | _ :: _, 0 => rfl
  | _ :: xs, n + 1 => congrArg (· + 1) (modN_length f xs n)

theorem getN_modN_ne (f : ACNode → ACNode) : ∀ (l : List ACNode) (n m : Nat), m ≠ n →
    getN (modN f l n) m = getN l m
  | [], _, _, _ => rfl
  | _ :: _, 0, 0, h => absurd rfl h
  | _ :: _, 0, _ + 1, _ => rfl
  | _ :: _, _ + 1, 0, _ => rfl
  | _ :: xs, n + 1, m + 1, h => getN_modN_ne f xs n m (fun hh => h (congrArg (· + 1) hh))

theorem getN_modN_eq (f : ACNode → ACNode) : ∀ (l : List ACNode) (n : Nat), n < l.length →
    getN (modN f l n) n = f (getN l n)
  | [], _, h => absurd h (by simp)
  | _ :: _, 0, _ => rfl
  | _ :: xs, n + 1, h => getN_modN_eq f xs n (Nat.lt_of_succ_lt_succ h)

theorem getN_append_lt : ∀ (l1 l2 : List ACNode) (n : Nat), n < l1.length →
    getN (l1 ++ l2) n = getN l1 n
  | [], _, _, h => absurd h (by simp)
  | _ :: _, _, 0, _ => rfl
  | _ :: xs, l2, n + 1, h => getN_append_lt xs l2 n (Nat.lt_of_succ_lt_succ h)

theorem getN_append_ge : ∀ (l1 l2 : List ACNode) (n : Nat), l1.length ≤ n →
    getN (l1 ++ l2) n = getN l2 (n - l1.length)
  | [], _, _, _ => rfl
  | _ :: _, _, 0, h => absurd h (by simp)
  | _ :: xs, l2, n + 1, h => by
    have ih := getN_append_ge xs l2 n (Nat.le_of_succ_le_succ h)
    simpa [Nat.succ_sub_succ] using ih

/-! ## Sorting and greedy-scan lemmas -/

theorem insertSorted_perm (before : α → α → Bool) (x : α) :
    ∀ l : List α, List.Perm (insertSorted before x l) (x :: l)
  | [] => List.Perm.refl _
  | y :: ys => by
    unfold insertSorted
    by_cases h : before x y = true
    · simp [h]
    · simp only [h, if_false, Bool.false_eq_true]
      exact ((insertSorted_perm before x ys).cons y).trans (List.Perm.swap x y ys)

theorem jsSortGo_perm (before : α → α → Bool) :
    ∀ (l acc : List α),
      List.Perm (l.foldl (fun acc x => insertSorted before x acc) acc) (acc ++ l)
  | [], acc => by simp
  | x :: xs, acc => by
    refine (jsSortGo_perm before xs (insertSorted before x acc)).trans ?_
    refine ((insertSorted_perm before x acc).append_right xs).trans ?_
    simpa using (@List.perm_middle _ x acc xs).symm

theorem jsSort_perm (before : α → α → Bool) (l : List α) : List.Perm (jsSort before l) l := by
  simpa [jsSort] using jsSortGo_perm before l []

theorem insertSorted_pairwise (before : α → α → Bool)
    (htr : ∀ a b c, before a b = true → before b c = true → before a c = true)
    (hasym : ∀ a b, before a b = true → before b a = false) (x : α) :
    ∀ l : List α, l.Pairwise (fun a b => before b a = false) →
      (insertSorted before x l).Pairwise (fun a b => before b a = false)
  | [], _ => by unfold insertSorted; simp
  | y :: ys, h => by
    rcases List.pairwise_cons.mp h with ⟨hy, hys⟩
    unfold insertSorted
    by_cases hxy : before x y = true
    · rw [if_pos hxy]
      refine List.pairwise_cons.mpr ⟨?_, h⟩
      intro z hz
      rcases List.mem_cons.mp hz with heq | hz2
      · rw [heq]; exact hasym x y hxy
      · cases hzx : before z x with
        | false => rfl
        | true =>
          have hzy := htr z x y hzx hxy
          rw [hy z hz2] at hzy
          exact absurd hzy (by simp)
    · rw [if_neg hxy]
      refine List.pairwise_cons.mpr ⟨?_, insertSorted_pairwise before htr hasym x ys hys⟩
      intro z hz
      rcases List.mem_cons.mp ((insertSorted_perm before x ys).mem_iff.mp hz) with heq | hz2
      · rw [heq]
        cases hbx : before x y with
        | false => rfl
        | true => exact absurd hbx hxy
      · exact hy z hz2

theorem jsSortGo_pairwise (before : α → α → Bool)
    (htr : ∀ a b c, before a b = true → before b c = true → before a c = true)
    (hasym : ∀ a b, before a b = true → before b a = false) :
    ∀ (l acc : List α), acc.Pairwise (fun a b => before b a = false) →
      (l.foldl (fun acc x => insertSorted before x acc) acc).Pairwise
        (fun a b => before b a = false)
  | [], _, h => h
  | x :: xs, acc, h =>
    jsSortGo_pairwise before htr hasym xs (insertSorted before x acc)
      (insertSorted_pairwise before htr hasym x acc h)

theorem jsSort_pairwise (before : α → α → Bool)
    (htr : ∀ a b c, before a b = true → before b c = true → before a c = true)
    (hasym : ∀ a b, before a b = true → before b a = false) (l : List α) :
    (jsSort before l).Pairwise (fun a b => before b a = false) :=
  jsSortGo_pairwise before htr hasym l [] (by simp)

theorem matchBefore_iff (a b : ValidMatch) :
    matchBefore a b = true ↔
      a.start < b.start ∨ (a.start = b.start ∧ b.endPos - b.start < a.endPos - a.start) := by
  simp only [matchBefore]
  split
  · rename_i h
    simp only [decide_eq_true_eq]
    exact ⟨Or.inl, fun hh => hh.elim id (fun hh => absurd hh.1 h)⟩
  · rename_i h
    rw [not_not] at h
    simp only [decide_eq_true_eq]
    exact ⟨fun hh => Or.inr ⟨h, hh⟩,
      fun hh => hh.elim (fun hh => absurd h (Nat.ne_of_lt hh)) And.right⟩

theorem matchBefore_false_iff (a b : ValidMatch) :
    matchBefore a b = false ↔
      ¬(a.start < b.start ∨ (a.start = b.start ∧ b.endPos - b.start < a.endPos - a.start)) := by
  rw [← matchBefore_iff]
  cases matchBefore a b <;> simp

theorem matchBefore_trans (a b c : ValidMatch) (h1 : matchBefore a b = true)
    (h2 : matchBefore b c = true) : matchBefore a c = true := by
  rw [matchBefore_iff] at h1 h2 ⊢
  omega

theorem matchBefore_asym (a b : ValidMatch) (h : matchBefore a b = true) :
    matchBefore b a = false := by
  rw [matchBefore_false_iff]
  rw [matchBefore_iff] at h
  omega

theorem overlapsGo_subset : ∀ (l : List ValidMatch) (e : Int) (m : ValidMatch),
    m ∈ overlapsGo l e → m ∈ l
  | [], _, _, h => absurd h (by simp [overlapsGo])
  | x :: rest, e, m, h => by
    unfold overlapsGo at h
    split at h
    · exact List.mem_cons_of_mem x (overlapsGo_subset rest e m h)
    · rcases List.mem_cons.mp h with rfl | h
      · exact List.mem_cons_self _ _
      · exact List.mem_cons_of_mem x (overlapsGo_subset rest _ m h)

theorem overlapsGo_start_ge : ∀ (l : List ValidMatch) (e : Int),
    (∀ x ∈ l, x.start < x.endPos) → ∀ m ∈ overlapsGo l e, e ≤ (m.start : Int)
  | [], _, _, _, h => absurd h (by simp [overlapsGo])
  | x :: rest, e, hpos, m, h => by
    unfold overlapsGo at h
    split at h
    · exact overlapsGo_start_ge rest e (fun y hy => hpos y (List.mem_cons_of_mem x hy)) m h
    · rename_i hkeep
      rcases List.mem_cons.mp h with rfl | h
      · omega
      · have h1 := overlapsGo_start_ge rest (x.endPos : Int)
          (fun y hy => hpos y (List.mem_cons_of_mem x hy)) m h
        have hx := hpos x (List.mem_cons_self _ _)
        omega

theorem overlapsGo_chain : ∀ (l : List ValidMatch) (e : Int),
    (∀ x ∈ l, x.start < x.endPos) →
    (overlapsGo l e).Pairwise (fun a b => a.endPos ≤ b.start)
  | [], _, _ => by simp [overlapsGo]
  | x :: rest, e, hpos => by
    have hrest := fun y hy => hpos y (List.mem_cons_of_mem x hy)
    unfold overlapsGo
    split
    · exact overlapsGo_chain rest e hrest
    · refine List.pairwise_cons.mpr ⟨?_, overlapsGo_chain rest (x.endPos : Int) hrest⟩
      intro m hm
      have h1 := overlapsGo_start_ge rest (x.endPos : Int) hrest m hm
      omega

theorem overlapsGo_longest : ∀ (l : List ValidMatch) (e : Int),
    (∀ x ∈ l, x.start < x.endPos) →
    l.Pairwise (fun a b => matchBefore b a = false) →
    ∀ m ∈ overlapsGo l e, ∀ v ∈ l, v.start = m.start →
      v.endPos - v.start ≤ m.endPos - m.start
  | [], _, _, _, m, hm => absurd hm (by simp [overlapsGo])
  | x :: rest, e, hpos, hsort, m, hm => by
    rcases List.pairwise_cons.mp hsort with ⟨hx, hrestsort⟩
    have hrest := fun y hy => hpos y (List.mem_cons_of_mem x hy)
    unfold overlapsGo at hm
    split at hm
    · rename_i hskip
      intro v hv hstart
      rcases List.mem_cons.mp hv with rfl | hv2
      · have h1 := overlapsGo_start_ge rest e hrest m hm
        omega
      · exact overlapsGo_longest rest e hrest hrestsort m hm v hv2 hstart
    · rename_i hkeep
      rcases List.mem_cons.mp hm with rfl | hm2
      · intro v hv hstart
        rcases List.mem_cons.mp hv with rfl | hv2
        · exact Nat.le_refl _
        · have hvx := hx v hv2
          rw [matchBefore_false_iff] at hvx
          omega
      · intro v hv hstart
        rcases List.mem_cons.mp hv with rfl | hv2
        · have h1 := overlapsGo_start_ge rest ((v.endPos : Nat) : Int) hrest m hm2
          have h2 := hpos v (List.mem_cons_self _ _)
          omega
        · exact overlapsGo_longest rest (x.endPos : Int) hrest hrestsort m hm2 v hv2 hstart

theorem removeOverlaps_subset (l : List ValidMatch) (m : ValidMatch)
    (h : m ∈ TermMatcher.removeOverlaps l) : m ∈ l := by
  unfold TermMatcher.removeOverlaps at h
  split at h
  · exact absurd h (by simp)
  · exact (jsSort_perm matchBefore l).mem_iff.mp (overlapsGo_subset _ _ _ h)

/-! ## Membership lemmas for the policy pipeline -/

theorem validMatches_mem (BETA : List Str) (tm : TermMatcher) (text : Str) (v : ValidMatch)
    (h : v ∈ TermMatcher.validMatches BETA tm text) :
    (∃ r ∈ tm.automaton.search text,
        r.start = v.start ∧ r.endPos = v.endPos ∧ r.pattern = v.pattern) ∧
    v.pattern ∉ EXCLUDED_PATTERNS ∧
    isWordBoundaryMatch text v.start v.endPos = true ∧
    tm.isValidCaseMatch text v.start v.endPos v.pattern = true ∧
    v.termIds = TermMatcher.filterByLevel BETA tm (tm.index.getTermIdsForPattern v.pattern) ∧
    v.termIds ≠ [] := by
  unfold TermMatcher.validMatches at h
  rcases List.mem_filterMap.mp h with ⟨r, hr, hf⟩
  dsimp only at hf
  by_cases c1 : r.pattern ∈ EXCLUDED_PATTERNS
  · rw [if_pos c1] at hf; exact absurd hf (by simp)
  rw [if_neg c1] at hf
  cases c2 : isWordBoundaryMatch text r.start r.endPos with
  | false => simp [c2] at hf
  | true =>
    simp only [c2, Bool.not_true, Bool.false_eq_true, if_false] at hf
    cases c3 : tm.isValidCaseMatch text r.start r.endPos r.pattern with
    | false => simp [c3] at hf
    | true =>
      simp only [c3, Bool.not_true, Bool.false_eq_true, if_false] at hf
      by_cases c4 : tm.index.getTermIdsForPattern r.pattern = []
      · rw [if_pos c4] at hf; exact absurd hf (by simp)
      rw [if_neg c4] at hf
      by_cases c5 : TermMatcher.filterByLevel BETA tm (tm.index.getTermIdsForPattern r.pattern) = []
      · rw [if_pos c5] at hf; exact absurd hf (by simp)
      rw [if_neg c5] at hf
      cases hf
      exact ⟨⟨r, hr, rfl, rfl, rfl⟩, c1, c2, c3, rfl, c5⟩

theorem mem_findTerms (BETA : List Str) (tm : TermMatcher) (text : Str) (m : OutMatch)
    (h : m ∈ TermMatcher.findTerms BETA tm text) :
    ∃ v ∈ TermMatcher.validMatches BETA tm.initAutomaton text,
      v.start = m.start ∧ v.endPos = m.endPos ∧ v.termIds = m.termIds := by
  unfold TermMatcher.findTerms at h
  dsimp only at h
  split at h
  · exact absurd h (by simp)
  split at h
  · exact absurd h (by simp)
  rcases List.mem_map.mp h with ⟨v, hv, heq⟩
  subst heq
  exact ⟨v, removeOverlaps_subset _ _ hv, rfl, rfl, rfl⟩

/-! ## Output nonemptiness is preserved through construction and build -/

theorem modN_oob (f : ACNode → ACNode) : ∀ (l : List ACNode) (n : Nat), l.length ≤ n →
    modN f l n = l
  | [], _, _ => rfl
  | _ :: _, 0, h => absurd h (by simp)
  | x :: xs, n + 1, h => congrArg (x :: ·) (modN_oob f xs n (Nat.le_of_succ_le_succ h))

theorem NEOut_modN {nodes : List ACNode} {f : ACNode → ACNode} {n : Nat} (hne : NEOut nodes)
    (hf : ∀ p ∈ (f (getN nodes n)).output, p ≠ []) : NEOut (modN f nodes n) := by
  intro m p hp
  by_cases hmn : m = n
  · subst hmn
    by_cases hlt : m < nodes.length
    · rw [getN_modN_eq f nodes m hlt] at hp
      exact hf p hp
    · rw [modN_oob f nodes m (Nat.le_of_not_lt hlt)] at hp
      exact hne m p hp
  · rw [getN_modN_ne f nodes n m hmn] at hp
    exact hne m p hp

theorem NEOut_append {nodes : List ACNode} {x : ACNode} (hne : NEOut nodes)
    (hx : ∀ p ∈ x.output, p ≠ []) : NEOut (nodes ++ [x]) := by
  intro m p hp
  by_cases hlt : m < nodes.length
  · rw [getN_append_lt nodes [x] m hlt] at hp
    exact hne m p hp
  · rw [getN_append_ge nodes [x] m (Nat.le_of_not_lt hlt)] at hp
    rcases hmn : m - nodes.length with _ | k
    · rw [hmn] at hp
      exact hx p hp
    · rw [hmn] at hp
      simp [getN, ACNode.new] at hp

theorem NEOut_insertFrom : ∀ (w : Str) (nodes : List ACNode) (n : Nat), NEOut nodes →
    NEOut (insertFrom nodes n w).1
  | [], _, _, hne => hne
  | c :: rest, nodes, n, hne => by
    unfold insertFrom
    cases hch : childOf nodes n c with
    | some m => exact NEOut_insertFrom rest nodes m hne
    | none =>
      dsimp only
      refine NEOut_insertFrom rest _ _ ?_
      refine NEOut_modN (NEOut_append hne ?_) ?_
      · intro p hp; simp [ACNode.new] at hp
      · intro p hp; exact NEOut_append hne (by intro p hp; simp [ACNode.new] at hp) _ p hp

theorem NEOut_addPattern (ac : AhoCorasick) (pattern : Str) (hne : NEOut ac.nodes) :
    NEOut (ac.addPattern pattern).nodes := by
  unfold AhoCorasick.addPattern
  split
  · exact hne
  · rename_i hp
    dsimp only
    refine NEOut_modN (NEOut_insertFrom _ _ _ hne) ?_
    intro p hmem
    rcases List.mem_append.mp hmem with hmem | hmem
    · exact NEOut_insertFrom (jsToLower pattern) ac.nodes 0 hne _ p hmem
    · rcases List.mem_singleton.mp hmem with rfl
      simpa [jsToLower] using hp

theorem NEOut_addPatterns : ∀ (ps : List Str) (ac : AhoCorasick), NEOut ac.nodes →
    NEOut (ac.addPatterns ps).nodes
  | [], _, hne => hne
  | p :: ps, ac, hne =>
    NEOut_addPatterns ps (ac.addPattern p) (NEOut_addPattern ac p hne)

theorem NEOut_processChild (nodes : List ACNode) (cur : Nat) (cc : Char × Nat)
    (hne : NEOut nodes) : NEOut (processChild nodes cur cc) := by
  unfold processChild
  refine NEOut_modN hne ?_
  intro p hp
  rcases List.mem_append.mp hp with hp | hp
  · exact hne _ p hp
  · exact hne _ p hp

theorem NEOut_foldChildren : ∀ (cs : List (Char × Nat)) (nodes : List ACNode) (cur : Nat),
    NEOut nodes → NEOut (cs.foldl (fun ns cc => processChild ns cur cc) nodes)
  | [], _, _, hne => hne
  | cc :: cs, nodes, cur, hne =>
    NEOut_foldChildren cs (processChild nodes cur cc) cur (NEOut_processChild nodes cur cc hne)

theorem NEOut_bfsLoop : ∀ (fuel : Nat) (q : List Nat) (nodes : List ACNode), NEOut nodes →
    NEOut (bfsLoop fuel q nodes)
  | 0, _, _, hne => hne
  | _ + 1, [], _, hne => hne
  | fuel + 1, cur :: rest, nodes, hne => by
    unfold bfsLoop
    exact NEOut_bfsLoop fuel _ _ (NEOut_foldChildren _ nodes cur hne)

theorem NEOut_initFold : ∀ (q : List Nat) (nodes : List ACNode), NEOut nodes →
    NEOut (q.foldl (fun ns i => modN (fun nd => { nd with fail := some 0 }) ns i) nodes)
  | [], _, hne => hne
  | i :: q, _, hne =>
    NEOut_initFold q _ (NEOut_modN hne (fun p hp => hne i p hp))

theorem NEOut_build (ac : AhoCorasick) (hne : NEOut ac.nodes) : NEOut ac.build.nodes := by
  unfold AhoCorasick.build
  split
  · exact hne
  · exact NEOut_bfsLoop _ _ _ (NEOut_initFold _ _ hne)

theorem NEOut_empty : NEOut AhoCorasick.empty.nodes := by
  intro n p hp
  rcases n with _ | k
  · simp [AhoCorasick.empty, getN, ACNode.new] at hp
  · simp [AhoCorasick.empty, getN, ACNode.new] at hp

/-! ## Structure of the records emitted by the scanning loop -/

theorem searchGo_mem (nodes : List ACNode) (fuel : Nat) :
    ∀ (t : Str) (i node : Nat) (r : RawMatch), r ∈ searchGo nodes fuel t i node →
      ∃ j ch, i ≤ j ∧ j < i + t.length ∧ r.endPos = j + 1 ∧
        r.start = j + 1 - r.pattern.length ∧ r.pattern ∈ (getN nodes ch).output
  | [], _, _, _, h => absurd h (by simp [searchGo])
  | c :: rest, i, node, r, h => by
    unfold searchGo at h
    cases hch : chaseNode nodes c fuel (some node) with
    | none =>
      rw [hch] at h
      rcases searchGo_mem nodes fuel rest (i + 1) 0 r h with ⟨j, ch, h1, h2, h3, h4, h5⟩
      refine ⟨j, ch, by omega, ?_, h3, h4, h5⟩
      simp only [List.length_cons]
      omega
    | some n =>
      rw [hch] at h
      rcases List.mem_append.mp h with hmem | hmem
      · rcases List.mem_map.mp hmem with ⟨p, hp, heq⟩
        subst heq
        refine ⟨i, (lookupChild (getN nodes n).children c).getD 0, Nat.le_refl i, ?_, rfl, rfl, hp⟩
        simp only [List.length_cons]
        omega
      · rcases searchGo_mem nodes fuel rest (i + 1) _ r hmem with ⟨j, ch, h1, h2, h3, h4, h5⟩
        refine ⟨j, ch, by omega, ?_, h3, h4, h5⟩
        simp only [List.length_cons]
        omega

/-! ## Claim theorems -/

/-- C8: building twice without intervening insertions yields the same search
results as building once, and `search` on an unbuilt automaton transparently
builds first, so its results equal those after an explicit `build`. -/
theorem c8_build_idempotent (ac : AhoCorasick) (text : Str) :
    ac.build.build.search text = ac.build.search text ∧
    ac.search text = ac.build.search text := by
  have hidem : ac.build.build = ac.build := by
    by_cases h : ac.built <;> simp [AhoCorasick.build, h]
  constructor
  · rw [hidem]
  · unfold AhoCorasick.search
    rw [hidem]

/-- C9 counterexample: `addPattern` applied to a truthy non-string value (the
number 1) is not a silent no-op — `pattern.toLowerCase()` throws a TypeError. -/
theorem c9_counterexample :
    addPatternJS AhoCorasick.empty (JSVal.vnum 1) = Except.error () := rfl

/-- C9 (amended): every *falsy* pattern value (empty string, null, undefined,
false, numeric zero) is a silent no-op at insertion; string patterns never
error; empty text yields no matches from `search` and an empty sequence from
`findTerms`; an empty pattern leaves the automaton unchanged. -/
theorem c9_graceful_degradation :
    (∀ (ac : AhoCorasick) (v : JSVal), v.isFalsy = true → addPatternJS ac v = Except.ok ac) ∧
    (∀ (ac : AhoCorasick) (s : Str), addPatternJS ac (JSVal.vstr s) =
        Except.ok (ac.addPattern s)) ∧
    (∀ ac : AhoCorasick, ac.search [] = []) ∧
    (∀ (BETA : List Str) (tm : TermMatcher), TermMatcher.findTerms BETA tm [] = []) ∧
    (∀ ac : AhoCorasick, ac.addPattern [] = ac) := by
  refine ⟨?_, ?_, ?_, ?_, ?_⟩
  · intro ac v hv
    cases v <;> simp_all [addPatternJS, JSVal.isFalsy, AhoCorasick.addPattern]
  · intro ac s
    rfl
  · intro ac
    rfl
  · intro BETA tm
    rfl
  · intro ac
    simp [AhoCorasick.addPattern]

/-- C9 witness: the amended theorem applied at a null pattern. -/
theorem c9_witness :
    addPatternJS AhoCorasick.empty JSVal.vnull = Except.ok AhoCorasick.empty :=
  c9_graceful_degradation.1 AhoCorasick.empty JSVal.vnull rfl

/-- C10 counterexample: with `BETA_TERM_LEVELS = ["beta"]` and beta features
off, a term whose level is the unknown string `"beta"` is dropped while a
`"medschool"` term is kept — an unknown term level does not behave exactly
like `'medschool'`. -/
theorem c10_counterexample :
    TermMatcher.filterByLevel [str "beta"] (createTermMatcher (termLevelIndex (str "beta")))
        [str "t1"] = [] ∧
    TermMatcher.filterByLevel [str "beta"]
        (createTermMatcher (termLevelIndex (str "medschool"))) [str "t1"] = [str "t1"] ∧
    (str "beta") ∉ [str "premed", str "medschool", str "all"] := by
  refine ⟨by decide, by decide, by decide⟩

/-- C7: a pattern in the fixed exclusion list is never accepted: no accepted
match carries an excluded pattern, every final match stems from an accepted
match, and the `"Diagnosed as severe"` scenario yields zero matches. -/
theorem c7_excluded_never_accepted :
    (∀ (BETA : List Str) (tm : TermMatcher) (text : Str) (v : ValidMatch),
        v ∈ TermMatcher.validMatches BETA tm text → v.pattern ∉ EXCLUDED_PATTERNS) ∧
    (∀ (BETA : List Str) (tm : TermMatcher) (text : Str) (m : OutMatch),
        m ∈ TermMatcher.findTerms BETA tm text →
          ∃ v ∈ TermMatcher.validMatches BETA tm.initAutomaton text,
            v.pattern ∉ EXCLUDED_PATTERNS ∧ v.start = m.start ∧ v.endPos = m.endPos ∧
            v.termIds = m.termIds) ∧
    TermMatcher.findTerms [str "beta"] (createTermMatcher idxAS)
      (str "Diagnosed as severe") = [] := by
  refine ⟨?_, ?_, by decide⟩
  · intro BETA tm text v hv
    exact (validMatches_mem BETA tm text v hv).2.1
  · intro BETA tm text m hm
    rcases mem_findTerms BETA tm text m hm with ⟨v, hv, h1, h2, h3⟩
    exact ⟨v, hv, (validMatches_mem _ _ _ v hv).2.1, h1, h2, h3⟩

/-- C7 witness: the theorem applied to a concrete accepted match. -/
theorem c7_witness : (str "mi") ∉ EXCLUDED_PATTERNS :=
  c7_excluded_never_accepted.1 [str "beta"] (createTermMatcher idxMI).initAutomaton
    (str "mi") ⟨0, 2, str "mi", [str "t1"]⟩ (by decide)

/-- C3 counterexample: the code treats `_` as a non-word character (its word
class is ASCII alphanumerics only), so the pattern `"mi"` matches inside
`"_mi_"` even though both surrounding characters are word characters under
the spec's letter/digit/underscore definition. -/
theorem c3_counterexample :
    TermMatcher.findTerms [str "beta"] (createTermMatcher idxMI) (str "_mi_") =
      [⟨1, 3, [str "t1"]⟩] ∧
    (str "_mi_").get? 0 = some '_' ∧ (str "_mi_").get? 3 = some '_' ∧
    wordCharSpec '_' = true := by
  refine ⟨by decide, by decide, by decide, by decide⟩

/-- C3 (amended): `findTerms` never returns a match whose immediately
surrounding characters (when they exist) are word characters in the code's
sense: ASCII letters or digits (underscore and non-ASCII characters are not
word characters for this check). -/
theorem c3_word_boundary_ascii (BETA : List Str) (tm : TermMatcher) (text : Str) (m : OutMatch)
    (hm : m ∈ TermMatcher.findTerms BETA tm text) :
    (0 < m.start → ∀ c, text.get? (m.start - 1) = some c → isWordChar c = false) ∧
    (m.endPos < text.length → ∀ c, text.get? m.endPos = some c → isWordChar c = false) := by
  rcases mem_findTerms BETA tm text m hm with ⟨v, hv, h1, h2, h3⟩
  have hb := (validMatches_mem _ _ _ v hv).2.2.1
  rw [h1, h2] at hb
  unfold isWordBoundaryMatch at hb
  simp only [Bool.and_eq_true] at hb
  rcases hb with ⟨hbs, hbe⟩
  constructor
  · intro hpos c hget
    rw [if_pos hpos, hget] at hbs
    simpa using hbs
  · intro hlt c hget
    rw [if_pos hlt, hget] at hbe
    simpa using hbe

/-- C3 witness: the amended theorem applied to the `"_mi_"` match. -/
theorem c3_witness : isWordChar '_' = false :=
  (c3_word_boundary_ascii [str "beta"] (createTermMatcher idxMI) (str "_mi_")
      ⟨1, 3, [str "t1"]⟩ (by decide)).1 (by decide) '_' (by decide)

/-- The shape of the level-filter predicate: the whole cascade accepts exactly
when the opt-in gate is off and the two hierarchy values agree. -/
theorem gate_shape_iff (c1 : Bool) (x y : Nat) :
    ((if c1 = true then false else if x ≠ y then false else true) = true) ↔
      (c1 = false ∧ x = y) := by
  cases c1 <;> by_cases h : x = y <;> simp [h]

/-- The opt-in gate is off exactly when the level is not a beta level or the
flag is on. -/
theorem beta_gate_iff (BETA : List Str) (L : Str) (flag : Bool) :
    ((BETA.contains L && !flag) = false) ↔ (L ∉ BETA ∨ flag = true) := by
  cases hc : BETA.contains L <;> cases flag <;> simp_all

/-- C5: the level/feature filter keeps a term id exactly when it is in the
input and — unless its metadata is missing entirely, in which case it is
always kept — its level (defaulting to `'medschool'`) passes the opt-in gate
and its hierarchy value equals the effective caller value, with a caller
setting of `'all'` mapped to `'medschool'` first. -/
theorem c5_filter_iff (BETA : List Str) (tm : TermMatcher) (ids : List Str) (id : Str) :
    id ∈ TermMatcher.filterByLevel BETA tm ids ↔
      id ∈ ids ∧
      ∀ meta, tm.index.terms id = some meta →
        ((match meta.level with
          | some l => if l = [] then str "medschool" else l
          | none => str "medschool") ∉ BETA ∨ tm.enableBetaFeatures = true) ∧
        (LEVEL_HIERARCHY (match meta.level with
          | some l => if l = [] then str "medschool" else l
          | none => str "medschool")).getD 1 =
          (LEVEL_HIERARCHY (if tm.userLevel = str "all" then str "medschool"
            else tm.userLevel)).getD 1 := by
  unfold TermMatcher.filterByLevel
  rw [List.mem_filter]
  apply and_congr_right
  intro _
  cases hterm : tm.index.terms id with
  | none =>
    simp only [hterm]
    constructor
    · intro _ meta hmeta
      exact absurd hmeta (by simp)
    · intro _
      trivial
  | some meta =>
    simp only [hterm]
    rw [gate_shape_iff]
    constructor
    · intro ⟨hgate, heq⟩ meta' hmeta'
      cases Option.some.inj hmeta'
      exact ⟨(beta_gate_iff _ _ _).mp hgate, heq⟩
    · intro h
      rcases h meta rfl with ⟨hgate, heq⟩
      exact ⟨(beta_gate_iff _ _ _).mpr hgate, heq⟩

/-- C5 witness: the filter keeps a medschool-level term for a medschool user. -/
theorem c5_witness :
    (str "t1") ∈ TermMatcher.filterByLevel [str "beta"]
      (createTermMatcher (termLevelIndex (str "medschool"))) [str "t1"] :=
  (c5_filter_iff [str "beta"] (createTermMatcher (termLevelIndex (str "medschool")))
      [str "t1"] (str "t1")).mpr (by decide)

/-- C6 counterexample: a pattern marked case-sensitive whose required casing
is the *empty string* (non-null) is accepted even though the matched substring
differs from the required casing — the falsy check `!originalCase` skips the
comparison. -/
theorem c6_counterexample :
    TermMatcher.findTerms [str "beta"] (createTermMatcher idxCaseEmpty) (str "MI") =
      [⟨0, 2, [str "t1"]⟩] ∧
    idxCaseEmpty.getPatternMetadata (str "mi") = some ⟨true, some []⟩ ∧
    ((str "MI").take 2).drop 0 ≠ ([] : Str) := by
  refine ⟨by decide, by decide, by decide⟩

/-- C6 (amended): for a raw hit whose pattern metadata is case-sensitive with
a non-null *and nonempty* required casing, acceptance forces the exact
substring `text[start:end]` to equal the required casing; the CHF scenario
behaves as specified. -/
theorem c6_case_match :
    (∀ (BETA : List Str) (tm : TermMatcher) (text : Str) (v : ValidMatch) (pm : PatternMeta)
        (oc : Str), v ∈ TermMatcher.validMatches BETA tm text →
        tm.index.getPatternMetadata v.pattern = some pm → pm.isCaseSensitive = true →
        pm.originalCase = some oc → oc ≠ [] →
        (text.take v.endPos).drop v.start = oc) ∧
    TermMatcher.findTerms [str "beta"] (createTermMatcher idxCHF) (str "patient with CHF") =
      [⟨13, 16, [str "t1"]⟩] ∧
    TermMatcher.findTerms [str "beta"] (createTermMatcher idxCHF) (str "patient with chf") =
      [] := by
  refine ⟨?_, by decide, by decide⟩
  intro BETA tm text v pm oc hv hpm hcs hoc hne
  have hc := (validMatches_mem _ _ _ v hv).2.2.2.1
  unfold TermMatcher.isValidCaseMatch at hc
  rw [hpm] at hc
  simp only [hcs, hoc, Bool.not_true, Bool.false_eq_true, if_false] at hc
  rw [if_neg hne] at hc
  exact of_decide_eq_true hc

/-- C6 witness: the amended theorem applied to the accepted CHF match. -/
theorem c6_witness : ((str "patient with CHF").take 16).drop 13 = str "CHF" :=
  c6_case_match.1 [str "beta"] (createTermMatcher idxCHF).initAutomaton
    (str "patient with CHF") ⟨13, 16, str "chf", [str "t1"]⟩ ⟨true, some (str "CHF")⟩
    (str "CHF") (by decide) (by decide) rfl rfl (by decide)

/-- C4: on already-normalized input (lowercased, trimmed pattern and trimmed
original), `shouldBeCaseSensitive` computes exactly the spec's ordered rule
cascade. -/
theorem c4_case_cascade (p o : Str) (b : Bool) (hp : jsToLower (jsTrim p) = p)
    (ho : jsTrim o = o) : shouldBeCaseSensitive p o b = caseCascadeSpec p o b := by
  simp only [shouldBeCaseSensitive, caseCascadeSpec]
  rw [hp, ho]
  by_cases hA : p ∈ EXCLUDED_PATTERNS
  · rw [if_pos hA, if_pos hA]
  rw [if_neg hA, if_neg hA]
  cases hB : b && decide (p.length ≤ 6) <;>
  cases hC : decide (p.length ≤ 4) && decide (o = jsToUpper o) <;>
  cases h6 : decide (p.length ≤ 6) <;>
  cases hU : hasAsciiUpper o <;>
  cases hS : isSentenceCase o <;>
    simp [hB, hC, h6, hU, hS]

/-- C4 witness: the cascade equality evaluated at the `"chf"` pattern. -/
theorem c4_witness :
    shouldBeCaseSensitive (str "chf") (str "CHF") false =
      caseCascadeSpec (str "chf") (str "CHF") false :=
  c4_case_cascade (str "chf") (str "CHF") false (by decide) (by decide)

/-- The hierarchy value of the standard tier. -/
theorem LEVEL_HIERARCHY_medschool : LEVEL_HIERARCHY (str "medschool") = some 1 := by decide

/-- Levels outside the three known tiers have no hierarchy entry. -/
theorem LEVEL_HIERARCHY_unknown (l : Str) (h1 : l ≠ str "premed") (h2 : l ≠ str "medschool")
    (h3 : l ≠ str "all") : LEVEL_HIERARCHY l = none := by
  simp [LEVEL_HIERARCHY, h1, h2, h3]

/-- C10 (amended): a falsy level resets the caller level to `'medschool'`;
any level string outside the three known tiers gets the standard tier's
hierarchy value, and an unknown *caller* level filters exactly like
`'medschool'`; an unknown *term* level also compares at the standard value
but can additionally be dropped by the opt-in gate, so it behaves like
`'medschool'` only when the beta-level list treats the two alike. -/
theorem c10_unknown_levels :
    (∀ tm : TermMatcher, (tm.setUserLevel none).userLevel = str "medschool" ∧
        (tm.setUserLevel (some [])).userLevel = str "medschool") ∧
    (∀ l : Str, l ∉ [str "premed", str "medschool", str "all"] →
        (LEVEL_HIERARCHY l).getD 1 = (LEVEL_HIERARCHY (str "medschool")).getD 1) ∧
    (∀ (BETA : List Str) (idx : TermIndex) (auto : AhoCorasick) (ini fl : Bool)
        (ids : List Str) (u : Str), u ∉ [str "premed", str "medschool", str "all"] →
        TermMatcher.filterByLevel BETA ⟨idx, auto, ini, u, fl⟩ ids =
          TermMatcher.filterByLevel BETA ⟨idx, auto, ini, str "medschool", fl⟩ ids) ∧
    (∀ (BETA : List Str) (idx1 idx2 : TermIndex) (auto : AhoCorasick) (ini fl : Bool)
        (ul : Str) (id u : Str), u ∉ [str "premed", str "medschool", str "all"] → u ≠ [] →
        (u ∈ BETA ↔ (str "medschool") ∈ BETA) →
        idx1.terms id = some ⟨some u⟩ → idx2.terms id = some ⟨some (str "medschool")⟩ →
        TermMatcher.filterByLevel BETA ⟨idx1, auto, ini, ul, fl⟩ [id] =
          TermMatcher.filterByLevel BETA ⟨idx2, auto, ini, ul, fl⟩ [id]) := by
  refine ⟨?_, ?_, ?_, ?_⟩
  · intro tm
    exact ⟨rfl, rfl⟩
  · intro l hl
    simp only [List.mem_cons, List.mem_singleton, not_or] at hl
    obtain ⟨h1, h2, h3, -⟩ := hl
    rw [LEVEL_HIERARCHY_unknown l h1 h2 h3, LEVEL_HIERARCHY_medschool]
    rfl
  · intro BETA idx auto ini fl ids u hu
    simp only [List.mem_cons, List.mem_singleton, not_or] at hu
    obtain ⟨h1, h2, h3, -⟩ := hu
    unfold TermMatcher.filterByLevel
    apply List.filter_congr
    intro id _
    dsimp only
    cases hterm : idx.terms id with
    | none => rfl
    | some meta =>
      rw [if_neg h3]
      rw [if_neg (by decide : ¬(str "medschool" = str "all"))]
      rw [LEVEL_HIERARCHY_unknown u h1 h2 h3, LEVEL_HIERARCHY_medschool]
      rfl
  · intro BETA idx1 idx2 auto ini fl ul id u hu hne hiff ht1 ht2
    simp only [List.mem_cons, List.mem_singleton, not_or] at hu
    obtain ⟨h1, h2, h3, -⟩ := hu
    have hc : BETA.contains u = BETA.contains (str "medschool") := by
      by_cases hm : (str "medschool") ∈ BETA
      · have hum : u ∈ BETA := hiff.mpr hm
        simp [hum, hm]
      · have hum : u ∉ BETA := fun h => hm (hiff.mp h)
        simp [hum, hm]
    unfold TermMatcher.filterByLevel
    apply List.filter_congr
    intro x hx
    rw [List.mem_singleton] at hx
    subst hx
    dsimp only
    rw [ht1, ht2]
    dsimp only
    rw [if_neg hne]
    rw [if_neg (by decide : ¬(str "medschool" = ([] : Str)))]
    rw [LEVEL_HIERARCHY_unknown u h1 h2 h3, LEVEL_HIERARCHY_medschool, hc]
    rfl

/-- C10 witness: an unknown caller level filters exactly like `'medschool'`. -/
theorem c10_witness :
    TermMatcher.filterByLevel [str "beta"]
        ⟨idxMI, AhoCorasick.empty, false, str "weird", false⟩ [str "t1"] =
      TermMatcher.filterByLevel [str "beta"]
        ⟨idxMI, AhoCorasick.empty, false, str "medschool", false⟩ [str "t1"] :=
  c10_unknown_levels.2.2.1 [str "beta"] idxMI AhoCorasick.empty false false [str "t1"]
    (str "weird") (by decide)

/-- `findTerms` always equals the overlap-resolved, projected accepted list
(in the early-return branches both sides are empty). -/
theorem findTerms_eq (BETA : List Str) (tm : TermMatcher) (text : Str) :
    TermMatcher.findTerms BETA tm text =
      (TermMatcher.removeOverlaps (TermMatcher.validMatches BETA tm.initAutomaton text)).map
        (fun m => ⟨m.start, m.endPos, m.termIds⟩) := by
  unfold TermMatcher.findTerms
  dsimp only
  split
  · rename_i htext
    subst htext
    have hv : TermMatcher.validMatches BETA tm.initAutomaton [] = [] := by
      unfold TermMatcher.validMatches
      rw [show tm.initAutomaton.automaton.search [] = [] from rfl]
      rfl
    rw [hv]
    rfl
  split
  · rename_i hraw
    have hv : TermMatcher.validMatches BETA tm.initAutomaton text = [] := by
      unfold TermMatcher.validMatches
      rw [hraw]
      rfl
    rw [hv]
    rfl
  · rfl

/-- Accepted matches of an interface-reachable matcher have positive spans. -/
theorem validMatches_pos (BETA : List Str) (idx : TermIndex) (ul : Option Str) (fl : Bool)
    (text : Str) (v : ValidMatch)
    (hv : v ∈ TermMatcher.validMatches BETA (mkMatcher idx ul fl).initAutomaton text) :
    v.start < v.endPos := by
  have hne : NEOut (mkMatcher idx ul fl).initAutomaton.automaton.nodes := by
    have he : (mkMatcher idx ul fl).initAutomaton.automaton =
        (AhoCorasick.empty.addPatterns idx.getAllPatterns).build := rfl
    rw [he]
    exact NEOut_build _ (NEOut_addPatterns _ _ NEOut_empty)
  rcases (validMatches_mem _ _ _ v hv).1 with ⟨r, hr, h1, h2, _⟩
  unfold AhoCorasick.search at hr
  dsimp only at hr
  rcases searchGo_mem _ _ _ _ _ r hr with ⟨j, ch, _, _, h3, h4, h5⟩
  have hnp : r.pattern ≠ [] := NEOut_build _ hne ch r.pattern h5
  have hlen : 1 ≤ r.pattern.length := by
    cases hp : r.pattern with
    | nil => exact absurd hp hnp
    | cons a l => simp [hp]
  rw [← h1, ← h2]
  omega

/-- C2: for every interface-reachable matcher and text, the `findTerms`
output consists of positive-span matches, pairwise non-overlapping, sorted by
strictly ascending start, and at any shared start position no accepted
candidate has a longer span than the kept match. -/
theorem c2_overlap_resolution (BETA : List Str) (idx : TermIndex) (ul : Option Str)
    (fl : Bool) (text : Str) :
    (∀ m ∈ TermMatcher.findTerms BETA (mkMatcher idx ul fl) text, m.start < m.endPos) ∧
    (TermMatcher.findTerms BETA (mkMatcher idx ul fl) text).Pairwise
      (fun a b => a.endPos ≤ b.start) ∧
    (TermMatcher.findTerms BETA (mkMatcher idx ul fl) text).Pairwise
      (fun a b => a.start < b.start) ∧
    (∀ m ∈ TermMatcher.findTerms BETA (mkMatcher idx ul fl) text,
      ∀ v ∈ TermMatcher.validMatches BETA (mkMatcher idx ul fl).initAutomaton text,
        v.start = m.start → v.endPos - v.start ≤ m.endPos - m.start) := by
  have hpos := validMatches_pos BETA idx ul fl text
  rw [findTerms_eq]
  have hposS : ∀ x ∈ jsSort matchBefore
      (TermMatcher.validMatches BETA (mkMatcher idx ul fl).initAutomaton text),
      x.start < x.endPos :=
    fun x hx => hpos x ((jsSort_perm matchBefore _).mem_iff.mp hx)
  have hchain : (TermMatcher.removeOverlaps
      (TermMatcher.validMatches BETA (mkMatcher idx ul fl).initAutomaton text)).Pairwise
      (fun a b => a.endPos ≤ b.start) := by
    unfold TermMatcher.removeOverlaps
    split
    · simp
    · exact overlapsGo_chain _ _ hposS
  have hsub := removeOverlaps_subset
    (TermMatcher.validMatches BETA (mkMatcher idx ul fl).initAutomaton text)
  refine ⟨?_, ?_, ?_, ?_⟩
  · intro m hm
    rcases List.mem_map.mp hm with ⟨w, hw, heq⟩
    have hw2 := hpos w (hsub w hw)
    subst heq
    exact hw2
  · exact hchain.map _ (fun a b hab => hab)
  · have hchain2 : (TermMatcher.removeOverlaps
        (TermMatcher.validMatches BETA (mkMatcher idx ul fl).initAutomaton text)).Pairwise
        (fun a b => a.start < b.start) := by
      refine hchain.imp_of_mem ?_
      intro a b ha hb hab
      have := hpos a (hsub a ha)
      omega
    exact hchain2.map _ (fun a b hab => hab)
  · intro m hm v hv hstart
    rcases List.mem_map.mp hm with ⟨w, hw, heq⟩
    subst heq
    unfold TermMatcher.removeOverlaps at hw
    split at hw
    · exact absurd hw (by simp)
    · exact overlapsGo_longest _ _ hposS
        (jsSort_pairwise matchBefore matchBefore_trans matchBefore_asym _) w hw v
        ((jsSort_perm matchBefore _).mem_iff.mpr hv) hstart

/-- C2 witness: the theorem evaluated on the CHF fixture. -/
theorem c2_witness : (13 : Nat) < 16 :=
  (c2_overlap_resolution [str "beta"] idxCHF none false (str "patient with CHF")).1
    ⟨13, 16, [str "t1"]⟩ (by decide)

/-! ## Suffix mathematics for the failure-link specification -/

theorem suffix_snoc_cancel {c : Char} {u w : Str} (h : u ++ [c] <:+ w ++ [c]) : u <:+ w := by
  rcases h with ⟨a, ha⟩
  rw [← List.append_assoc] at ha
  rcases List.append_inj' ha rfl with ⟨h1, -⟩
  exact ⟨a, h1⟩

theorem suffix_snoc_cases {c : Char} {v w : Str} (hv : v <:+ w ++ [c]) (hne : v ≠ []) :
    ∃ u, v = u ++ [c] ∧ u <:+ w := by
  rcases List.eq_nil_or_concat v with rfl | ⟨u, d, rfl⟩
  · exact absurd rfl hne
  · rcases hv with ⟨a, ha⟩
    rw [List.concat_eq_append, ← List.append_assoc] at ha
    rcases List.append_inj' ha rfl with ⟨h1, h2⟩
    rcases List.singleton_inj.mp h2 with rfl
    exact ⟨u, List.concat_eq_append u d, ⟨a, h1⟩⟩

theorem follow_append (nodes : List ACNode) :
    ∀ (u v : Str) (n : Nat), follow nodes n (u ++ v) =
      (follow nodes n u).bind (fun a => follow nodes a v)
  | [], _, _ => rfl
  | c :: u, v, n => by
    simp only [List.cons_append, follow]
    cases hch : childOf nodes n c with
    | none => rfl
    | some m => exact follow_append nodes u v m

theorem isSome_follow_of_append {nodes : List ACNode} {u v : Str} {n : Nat}
    (h : (follow nodes n (u ++ v)).isSome) : (follow nodes n u).isSome := by
  rw [follow_append] at h
  cases hf : follow nodes n u with
  | none => rw [hf] at h; simp at h
  | some m => simp

/-- `longestPathSuffix` always returns a path-suffix of its argument. -/
theorem lpsf_spec (nodes : List ACNode) :
    ∀ w : Str, longestPathSuffix nodes w <:+ w ∧
      (follow nodes 0 (longestPathSuffix nodes w)).isSome
  | [] => by
    constructor
    · simp [longestPathSuffix, List.tails, List.find?, follow]
    · simp [longestPathSuffix, List.tails, List.find?, follow]
  | c :: t => by
    unfold longestPathSuffix
    rw [List.tails_cons]
    cases hpath : (follow nodes 0 (c :: t)).isSome with
    | true =>
      rw [List.find?_cons_of_pos _ (by simpa using hpath)]
      exact ⟨List.suffix_refl _, by simpa using hpath⟩
    | false =>
      rw [List.find?_cons_of_neg _ (by simpa using hpath)]
      have ih := lpsf_spec nodes t
      unfold longestPathSuffix at ih
      exact ⟨ih.1.trans (List.suffix_cons c t), ih.2⟩

theorem suffix_append_same {u w t : Str} (h : u <:+ w) : u ++ t <:+ w ++ t := by
  rcases h with ⟨a, rfl⟩
  exact ⟨a, (List.append_assoc a u t).symm⟩

/-- Maximality: no path-suffix of `w` is longer than `longestPathSuffix w`. -/
theorem lpsf_maximal (nodes : List ACNode) :
    ∀ w v : Str, v <:+ w → (follow nodes 0 v).isSome →
      v.length ≤ (longestPathSuffix nodes w).length
  | [], v, hv, _ => by
    rw [List.suffix_nil.mp hv]
    exact Nat.zero_le _
  | c :: t, v, hv, hpv => by
    unfold longestPathSuffix
    rw [List.tails_cons]
    cases hpath : (follow nodes 0 (c :: t)).isSome with
    | true =>
      rw [List.find?_cons_of_pos _ (by simpa using hpath)]
      simpa using hv.length_le
    | false =>
      rw [List.find?_cons_of_neg _ (by simpa using hpath)]
      rcases List.suffix_cons_iff.mp hv with rfl | hvt
      · rw [hpv] at hpath
        exact absurd hpath (by simp)
      · have := lpsf_maximal nodes t v hvt hpv
        unfold longestPathSuffix at this
        exact this

/-- A path is its own longest path-suffix. -/
theorem lpsf_of_path (nodes : List ACNode) (w : Str) (h : (follow nodes 0 w).isSome) :
    longestPathSuffix nodes w = w := by
  cases w with
  | nil => simp [longestPathSuffix, List.tails, List.find?, follow]
  | cons c t =>
    unfold longestPathSuffix
    rw [List.tails_cons, List.find?_cons_of_pos _ (by simpa using h)]
    rfl

/-- Congruence: two strings with the same path-suffixes have the same longest
path-suffix. -/
theorem lpsf_congr {nodes : List ACNode} {a b : Str}
    (hab : ∀ v, v <:+ a → (follow nodes 0 v).isSome → v <:+ b)
    (hba : ∀ v, v <:+ b → (follow nodes 0 v).isSome → v <:+ a) :
    longestPathSuffix nodes a = longestPathSuffix nodes b := by
  rcases lpsf_spec nodes a with ⟨hsa, hpa⟩
  rcases lpsf_spec nodes b with ⟨hsb, hpb⟩
  have h1 : (longestPathSuffix nodes a).length ≤ (longestPathSuffix nodes b).length :=
    lpsf_maximal nodes b _ (hab _ hsa hpa) hpa
  have h2 : (longestPathSuffix nodes b).length ≤ (longestPathSuffix nodes a).length :=
    lpsf_maximal nodes a _ (hba _ hsb hpb) hpb
  exact List.IsSuffix.eq_of_length
    (List.suffix_of_suffix_length_le (hab _ hsa hpa) hsb h1)
    (Nat.le_antisymm h1 h2)

/-- Extending by one character commutes with taking the longest path-suffix
(the classical automaton-transition identity). -/
theorem lpsf_snoc_eq (nodes : List ACNode) (w : Str) (c : Char) :
    longestPathSuffix nodes (w ++ [c]) =
      longestPathSuffix nodes (longestPathSuffix nodes w ++ [c]) := by
  rcases lpsf_spec nodes w with ⟨hsw, _⟩
  apply lpsf_congr
  · intro v hv hpv
    by_cases hvn : v = []
    · subst hvn
      exact List.nil_suffix
    · rcases suffix_snoc_cases hv hvn with ⟨u, rfl, hu⟩
      have hpu : (follow nodes 0 u).isSome := isSome_follow_of_append hpv
      have hul : u.length ≤ (longestPathSuffix nodes w).length := lpsf_maximal nodes w u hu hpu
      exact suffix_append_same (List.suffix_of_suffix_length_le hu (lpsf_spec nodes w).1 hul)
  · intro v hv _
    exact hv.trans (suffix_append_same hsw)

/-! ## Paths of a well-formed trie -/

theorem follow_eq_nodeAt {nodes : List ACNode} {w : Str} (h : (follow nodes 0 w).isSome) :
    follow nodes 0 w = some (nodeAt nodes w) := by
  rcases Option.isSome_iff_exists.mp h with ⟨n, hn⟩
  rw [hn]
  simp [nodeAt, hn]

theorem follow_snoc (nodes : List ACNode) (w : Str) (c : Char) :
    follow nodes 0 (w ++ [c]) = (follow nodes 0 w).bind (fun a => childOf nodes a c) := by
  rw [follow_append]
  cases follow nodes 0 w with
  | none => rfl
  | some a =>
    show follow nodes a [c] = childOf nodes a c
    cases h : childOf nodes a c <;> simp [follow, h]

theorem follow_lt {nodes : List ACNode} (hwf : TrieWF nodes) :
    ∀ (w : Str) (s n : Nat), s < nodes.length → follow nodes s w = some n → n < nodes.length
  | [], s, n, hs, h => by
    cases h
    exact hs
  | c :: t, s, n, hs, h => by
    unfold follow at h
    cases hch : childOf nodes s c with
    | none => rw [hch] at h; exact absurd h (by simp)
    | some m =>
      rw [hch] at h
      exact follow_lt hwf t m n (hwf.edge_lt s c m hch).1 h

theorem follow_zero {nodes : List ACNode} (hwf : TrieWF nodes) (w : Str)
    (h : follow nodes 0 w = some 0) : w = [] := by
  rcases List.eq_nil_or_concat w with rfl | ⟨u, c, rfl⟩
  · rfl
  · rw [List.concat_eq_append, follow_snoc] at h
    cases hf : follow nodes 0 u with
    | none => rw [hf] at h; exact absurd h (by simp)
    | some a =>
      rw [hf] at h
      exact absurd rfl (hwf.edge_lt a c 0 h).2

theorem follow_inj {nodes : List ACNode} (hwf : TrieWF nodes) :
    ∀ (k : Nat) (w w' : Str) (n : Nat), w.length ≤ k → follow nodes 0 w = some n →
      follow nodes 0 w' = some n → w = w'
  | 0, w, w', n, hk, hw, hw' => by
    rw [List.length_eq_zero.mp (Nat.le_zero.mp hk)] at hw ⊢
    cases hw
    exact (follow_zero hwf w' hw').symm
  | k + 1, w, w', n, hk, hw, hw' => by
    rcases List.eq_nil_or_concat w with rfl | ⟨u, c, rfl⟩
    · cases hw
      exact (follow_zero hwf w' hw').symm
    · rw [List.concat_eq_append] at hk hw ⊢
      rw [follow_snoc] at hw
      cases hfu : follow nodes 0 u with
      | none => rw [hfu] at hw; exact absurd hw (by simp)
      | some a =>
        rw [hfu] at hw
        rw [Option.some_bind] at hw
        have hn0 : n ≠ 0 := (hwf.edge_lt a c n hw).2
        rcases List.eq_nil_or_concat w' with rfl | ⟨u', c', rfl⟩
        · cases hw'
          exact absurd rfl hn0
        · rw [List.concat_eq_append] at hw' ⊢
          rw [follow_snoc] at hw'
          cases hfu' : follow nodes 0 u' with
          | none => rw [hfu'] at hw'; exact absurd hw' (by simp)
          | some a' =>
            rw [hfu'] at hw'
            rw [Option.some_bind] at hw'
            rcases hwf.parent_unique a c a' c' n hw hw' with ⟨rfl, rfl⟩
            have hlen : u.length ≤ k := by
              simp only [List.length_append, List.length_singleton] at hk
              omega
            rw [follow_inj hwf k u u' a hlen hfu hfu']

/-- Every path of a well-formed trie is shorter than the arena (its prefixes
occupy distinct node indices). -/
theorem path_length_lt {nodes : List ACNode} (hwf : TrieWF nodes) (w : Str)
    (h : (follow nodes 0 w).isSome) : w.length < nodes.length := by
  have hpref : ∀ j, j ≤ w.length → (follow nodes 0 (w.take j)).isSome := by
    intro j hj
    have : w = w.take j ++ w.drop j := (List.take_append_drop j w).symm
    rw [this] at h
    exact isSome_follow_of_append h
  have hnd : ((List.range (w.length + 1)).map (fun j => nodeAt nodes (w.take j))).Nodup := by
    rw [List.nodup_map_iff_inj_on (List.nodup_range _)]
    intro j hj j' hj' heq
    rw [List.mem_range] at hj hj'
    have h1 := follow_eq_nodeAt (hpref j (by omega))
    have h2 := follow_eq_nodeAt (hpref j' (by omega))
    rw [heq] at h1
    have := follow_inj hwf (w.take j).length (w.take j) (w.take j') _ (Nat.le_refl _) h1 h2
    have hlj : (w.take j).length = j := by simp; omega
    have hlj' : (w.take j').length = j' := by simp; omega
    rw [← hlj, ← hlj', this]
  have hsub : ((List.range (w.length + 1)).map (fun j => nodeAt nodes (w.take j))).toFinset ⊆
      Finset.range nodes.length := by
    intro x hx
    rw [List.mem_toFinset, List.mem_map] at hx
    rcases hx with ⟨j, hj, rfl⟩
    rw [List.mem_range] at hj
    rw [Finset.mem_range]
    have hp := hpref j (by omega)
    have := follow_lt hwf (w.take j) 0 _ hwf.size_pos (follow_eq_nodeAt hp)
    exact this
  have hcard := Finset.card_le_card hsub
  rw [List.toFinset_card_of_nodup hnd] at hcard
  simp only [List.length_map, List.length_range, Finset.card_range] at hcard
  omega

/-- With duplicate-free keys, each child-map entry is what lookup returns. -/
theorem lookup_of_mem_children : ∀ (ch : List (Char × Nat)) (c : Char) (m : Nat),
    (ch.map Prod.fst).Nodup → (c, m) ∈ ch → lookupChild ch c = some m
  | [], _, _, _, h => absurd h (by simp)
  | (c', m') :: ch, c, m, hnd, h => by
    rcases List.mem_cons.mp h with heq | hmem
    · cases heq
      simp [lookupChild]
    · have hkey : c ≠ c' := by
        intro hcc
        subst hcc
        have : c ∈ ch.map Prod.fst := List.mem_map.mpr ⟨(c, m), hmem, rfl⟩
        rw [List.map_cons] at hnd
        exact (List.nodup_cons.mp hnd).1 this
      have ih := lookup_of_mem_children ch c m (by rw [List.map_cons] at hnd; exact (List.nodup_cons.mp hnd).2) hmem
      unfold lookupChild at ih ⊢
      rw [List.find?_cons_of_neg _ (by simpa using (Ne.symm hkey))]
      exact ih

/-- Child edges extend paths by one character. -/
theorem path_snoc {nodes : List ACNode} {w : Str} {c : Char} {m : Nat}
    (hw : (follow nodes 0 w).isSome) (hch : childOf nodes (nodeAt nodes w) c = some m) :
    follow nodes 0 (w ++ [c]) = some m := by
  rw [follow_snoc, follow_eq_nodeAt hw, Option.some_bind, hch]

/-! ## The failure-link specification `lps` -/

theorem lps_suffix (nodes : List ACNode) : ∀ w : Str, lps nodes w <:+ w
  | [] => List.suffix_refl []
  | c :: t => ((lpsf_spec nodes t).1).trans (List.suffix_cons c t)

theorem lps_path (nodes : List ACNode) : ∀ w : Str, (follow nodes 0 (lps nodes w)).isSome
  | [] => by simp [lps, follow]
  | _ :: t => (lpsf_spec nodes t).2

theorem lps_maximal (nodes : List ACNode) : ∀ (w v : Str), v <:+ w → v ≠ w →
    (follow nodes 0 v).isSome → v.length ≤ (lps nodes w).length
  | [], v, hv, hne, _ => absurd (List.suffix_nil.mp hv) hne
  | c :: t, v, hv, hne, hp => by
    rcases List.suffix_cons_iff.mp hv with rfl | hvt
    · exact absurd rfl hne
    · exact lpsf_maximal nodes t v hvt hp

theorem lps_length_lt (nodes : List ACNode) (w : Str) (h : w ≠ []) :
    (lps nodes w).length < w.length := by
  cases w with
  | nil => exact absurd rfl h
  | cons c t =>
    have := ((lpsf_spec nodes t).1).length_le
    simp only [lps, List.length_cons]
    omega

theorem lps_snoc (nodes : List ACNode) (w : Str) (c : Char) (h : w ≠ []) :
    lps nodes (w ++ [c]) = longestPathSuffix nodes (lps nodes w ++ [c]) := by
  cases w with
  | nil => exact absurd rfl h
  | cons a t =>
    show lps nodes (a :: (t ++ [c])) = _
    show longestPathSuffix nodes (t ++ [c]) = _
    exact lpsf_snoc_eq nodes t c

/-- When the node at path `w` has no `c`-edge, extending `w` or its longest
proper path-suffix by `c` yields the same longest path-suffix. -/
theorem lpsf_skip {nodes : List ACNode} {w : Str} {c : Char}
    (hw : (follow nodes 0 w).isSome) (hedge : childOf nodes (nodeAt nodes w) c = none) :
    longestPathSuffix nodes (w ++ [c]) = longestPathSuffix nodes (lps nodes w ++ [c]) := by
  have hnp : follow nodes 0 (w ++ [c]) = none := by
    rw [follow_snoc, follow_eq_nodeAt hw, Option.some_bind, hedge]
  apply lpsf_congr
  · intro v hv hpv
    by_cases hvn : v = []
    · subst hvn
      exact List.nil_suffix
    · rcases suffix_snoc_cases hv hvn with ⟨u, rfl, hu⟩
      have hpu : (follow nodes 0 u).isSome := isSome_follow_of_append hpv
      have hune : u ≠ w := by
        rintro rfl
        rw [hnp] at hpv
        exact absurd hpv (by simp)
      have hul := lps_maximal nodes w u hu hune hpu
      exact suffix_append_same (List.suffix_of_suffix_length_le hu (lps_suffix nodes w) hul)
  · intro v hv _
    exact hv.trans (suffix_append_same (lps_suffix nodes w))

/-! ## The failure-chase loops compute longest path-suffix transitions -/

theorem structEq_childOf {base cur : List ACNode} (hs : StructEq base cur) (n : Nat) (c : Char) :
    childOf cur n c = childOf base n c := by
  unfold childOf
  rw [hs.2.1 n]

theorem lpsf_single_of_no_edge {base : List ACNode} {c : Char}
    (hedge : childOf base 0 c = none) : longestPathSuffix base ([c]) = [] := by
  unfold longestPathSuffix
  rw [List.tails_cons]
  rw [List.find?_cons_of_neg _ (by
    have : follow base 0 [c] = none := by
      have h0 : follow base 0 ([] ++ [c]) = (follow base 0 []).bind
          (fun a => childOf base a c) := follow_snoc base [] c
      simpa using h0.trans (by simp [follow, hedge])
    simp [this])]
  simp [List.tails, List.find?, follow]

theorem chaseFail_none (nodes : List ACNode) (c : Char) (fuel : Nat) :
    chaseFail nodes c fuel none = 0 := by cases fuel <;> rfl

theorem chaseNode_none (nodes : List ACNode) (c : Char) (fuel : Nat) :
    chaseNode nodes c fuel none = none := by cases fuel <;> rfl

theorem chase_correct (base cur : List ACNode) (hs : StructEq base cur)
    (hroot : (getN base 0).fail = none) (d : Nat)
    (hF : ∀ v : Str, (follow base 0 v).isSome → 1 ≤ v.length → v.length ≤ d →
      (getN cur (nodeAt base v)).fail = some (nodeAt base (lps base v))) (c : Char) :
    ∀ (fuel : Nat) (w : Str), (follow base 0 w).isSome → w.length ≤ d → w.length < fuel →
      chaseFail cur c fuel (some (nodeAt base w)) =
        nodeAt base (longestPathSuffix base (w ++ [c]))
  | 0, _, _, _, hfuel => absurd hfuel (by omega)
  | fuel + 1, w, hw, hwd, hfuel => by
    unfold chaseFail
    rw [hs.2.1 (nodeAt base w)]
    cases hedge : lookupChild (getN base (nodeAt base w)).children c with
    | some m =>
      have hpath : follow base 0 (w ++ [c]) = some m := path_snoc hw hedge
      rw [lpsf_of_path base (w ++ [c]) (by rw [hpath]; rfl)]
      simp [nodeAt, hpath]
    | none =>
      by_cases hwn : w = []
      · subst hwn
        have h0 : nodeAt base ([] : Str) = 0 := rfl
        rw [h0, hs.2.2, hroot]
        rw [List.nil_append, lpsf_single_of_no_edge (h0 ▸ hedge)]
        show chaseFail cur c fuel none = nodeAt base ([] : Str)
        rw [chaseFail_none]
        rfl
      · rw [hF w hw (by cases w with | nil => exact absurd rfl hwn | cons a t => simp) hwd]
        have hlt := lps_length_lt base w hwn
        rw [chase_correct base cur hs hroot d hF c fuel (lps base w) (lps_path base w)
          (by omega) (by omega)]
        rw [lpsf_skip hw hedge]

theorem chaseNode_correct (base cur : List ACNode) (hs : StructEq base cur)
    (hroot : (getN base 0).fail = none) (d : Nat)
    (hF : ∀ v : Str, (follow base 0 v).isSome → 1 ≤ v.length → v.length ≤ d →
      (getN cur (nodeAt base v)).fail = some (nodeAt base (lps base v))) (c : Char) :
    ∀ (fuel : Nat) (w : Str), (follow base 0 w).isSome → w.length ≤ d → w.length < fuel →
      (chaseNode cur c fuel (some (nodeAt base w)) = none ∧
        longestPathSuffix base (w ++ [c]) = []) ∨
      (∃ u, (follow base 0 u).isSome ∧
        chaseNode cur c fuel (some (nodeAt base w)) = some (nodeAt base u) ∧
        childOf base (nodeAt base u) c = some (nodeAt base (u ++ [c])) ∧
        longestPathSuffix base (w ++ [c]) = u ++ [c])
  | 0, _, _, _, hfuel => absurd hfuel (by omega)
  | fuel + 1, w, hw, hwd, hfuel => by
    unfold chaseNode
    rw [hs.2.1 (nodeAt base w)]
    cases hedge : lookupChild (getN base (nodeAt base w)).children c with
    | some m =>
      right
      refine ⟨w, hw, by simp [hedge], ?_, ?_⟩
      · have hpath : follow base 0 (w ++ [c]) = some m := path_snoc hw hedge
        rw [show nodeAt base (w ++ [c]) = m by simp [nodeAt, hpath]]
        exact hedge
      · exact lpsf_of_path base (w ++ [c]) (by rw [path_snoc hw hedge]; rfl)
    | none =>
      simp only [hedge, Option.isSome_none, Bool.false_eq_true, if_false]
      by_cases hwn : w = []
      · subst hwn
        have h0 : nodeAt base ([] : Str) = 0 := rfl
        rw [h0, hs.2.2, hroot]
        left
        exact ⟨chaseNode_none cur c fuel,
          by rw [List.nil_append, lpsf_single_of_no_edge (h0 ▸ hedge)]⟩
      · rw [hF w hw (by cases w with | nil => exact absurd rfl hwn | cons a t => simp) hwd]
        have hlt := lps_length_lt base w hwn
        have ih := chaseNode_correct base cur hs hroot d hF c fuel (lps base w)
          (lps_path base w) (by omega) (by omega)
        rw [lpsf_skip hw hedge]
        exact ih

/-! ## Pattern insertion preserves trie well-formedness -/

theorem lookupChild_append_some {l1 l2 : List (Char × Nat)} {c : Char} {m : Nat}
    (h : lookupChild l1 c = some m) : lookupChild (l1 ++ l2) c = some m := by
  unfold lookupChild at h ⊢
  cases hf : l1.find? (fun p => p.1 = c) with
  | none => rw [hf] at h; exact absurd h (by simp)
  | some p =>
    rw [hf] at h
    rw [List.find?_append, hf]
    exact h

theorem lookupChild_append_none {l1 l2 : List (Char × Nat)} {c : Char}
    (h : lookupChild l1 c = none) : lookupChild (l1 ++ l2) c = lookupChild l2 c := by
  unfold lookupChild at h ⊢
  cases hf : l1.find? (fun p => p.1 = c) with
  | some p => rw [hf] at h; exact absurd h (by simp)
  | none => rw [List.find?_append, hf, Option.none_or]

theorem lookupChild_none_key {l : List (Char × Nat)} {c : Char}
    (h : lookupChild l c = none) : ∀ p ∈ l, p.1 ≠ c := by
  unfold lookupChild at h
  cases hf : l.find? (fun p => p.1 = c) with
  | some p => rw [hf] at h; exact absurd h (by simp)
  | none =>
    intro p hp
    have := List.find?_eq_none.mp hf p hp
    simpa using this

theorem insertStep_length (nodes : List ACNode) (n : Nat) (c : Char) :
    (insertStep nodes n c).length = nodes.length + 1 := by
  unfold insertStep
  rw [modN_length]
  simp

theorem insertStep_get_other (nodes : List ACNode) (n : Nat) (c : Char) (k : Nat)
    (hk : k ≠ n) (hk2 : k ≠ nodes.length) :
    getN (insertStep nodes n c) k = getN nodes k := by
  unfold insertStep
  rw [getN_modN_ne _ _ n k hk]
  by_cases hlt : k < nodes.length
  · exact getN_append_lt nodes _ k hlt
  · rw [getN_append_ge nodes _ k (Nat.le_of_not_lt hlt)]
    rcases hd : k - nodes.length with _ | j
    · omega
    · simp only [getN]
      rw [List.get?_len_le (show nodes.length ≤ k by omega)]
      simp

theorem insertStep_get_n (nodes : List ACNode) (n : Nat) (c : Char) (hn : n < nodes.length) :
    getN (insertStep nodes n c) n =
      { getN nodes n with children := (getN nodes n).children ++ [(c, nodes.length)] } := by
  unfold insertStep
  rw [getN_modN_eq _ _ n (by simp; omega), getN_append_lt nodes _ n hn]

theorem insertStep_get_new (nodes : List ACNode) (n : Nat) (c : Char) (hn : n < nodes.length) :
    getN (insertStep nodes n c) nodes.length =
      { ACNode.new with depth := (getN nodes n).depth + 1 } := by
  unfold insertStep
  rw [getN_modN_ne _ _ n nodes.length (by omega), getN_append_ge nodes _ _ (Nat.le_refl _)]
  simp [getN]

theorem insertStep_child_cases (nodes : List ACNode) (n : Nat) (c : Char)
    (hn : n < nodes.length) (hnone : childOf nodes n c = none) (k : Nat) (c' : Char)
    (m : Nat) (h : childOf (insertStep nodes n c) k c' = some m) :
    childOf nodes k c' = some m ∨ (k = n ∧ c' = c ∧ m = nodes.length) := by
  by_cases hkn : k = n
  · subst hkn
    unfold childOf at h
    rw [insertStep_get_n nodes k c hn] at h
    simp only at h
    cases hold : lookupChild (getN nodes k).children c' with
    | some m' =>
      rw [lookupChild_append_some hold] at h
      exact Or.inl (hold.trans h)
    | none =>
      rw [lookupChild_append_none hold] at h
      unfold lookupChild at h
      simp only [List.find?_singleton] at h
      by_cases hc : c = c'
      · subst hc
        simp at h
        exact Or.inr ⟨rfl, rfl, h.symm⟩
      · rw [if_neg (by simpa using fun hh => hc hh)] at h
        exact absurd h (by simp)
  · by_cases hknew : k = nodes.length
    · subst hknew
      unfold childOf at h
      rw [insertStep_get_new nodes n c hn] at h
      simp [ACNode.new, lookupChild] at h
    · unfold childOf at h
      rw [insertStep_get_other nodes n c k hkn hknew] at h
      exact Or.inl h

theorem insertStep_child_stab (nodes : List ACNode) (n : Nat) (c : Char)
    (hn : n < nodes.length) (k : Nat) (c' : Char) (m : Nat)
    (h : childOf nodes k c' = some m) : childOf (insertStep nodes n c) k c' = some m := by
  by_cases hkn : k = n
  · subst hkn
    unfold childOf
    rw [insertStep_get_n nodes k c hn]
    exact lookupChild_append_some h
  · by_cases hknew : k = nodes.length
    · subst hknew
      unfold childOf at h
      rw [show getN nodes nodes.length = ACNode.new by simp [getN]] at h
      simp [ACNode.new, lookupChild] at h
    · unfold childOf
      rw [insertStep_get_other nodes n c k hkn hknew]
      exact h

theorem insertStep_child_new (nodes : List ACNode) (n : Nat) (c : Char)
    (hn : n < nodes.length) (hnone : childOf nodes n c = none) :
    childOf (insertStep nodes n c) n c = some nodes.length := by
  unfold childOf
  rw [insertStep_get_n nodes n c hn]
  simp only
  rw [lookupChild_append_none hnone]
  simp [lookupChild]

theorem insertStep_follow_stab (nodes : List ACNode) (n : Nat) (c : Char)
    (hn : n < nodes.length) :
    ∀ (w : Str) (s m : Nat), follow nodes s w = some m →
      follow (insertStep nodes n c) s w = some m
  | [], _, _, h => h
  | c' :: t, s, m, h => by
    unfold follow at h ⊢
    cases hch : childOf nodes s c' with
    | none => rw [hch] at h; exact absurd h (by simp)
    | some a =>
      rw [hch] at h
      rw [insertStep_child_stab nodes n c hn s c' a hch]
      exact insertStep_follow_stab nodes n c hn t a m h

theorem insertStep_follow_back {nodes : List ACNode} (hwf : TrieWF nodes) (n : Nat) (c : Char)
    (hn : n < nodes.length) (hnone : childOf nodes n c = none) :
    ∀ (w : Str) (s m : Nat), s < nodes.length → m < nodes.length →
      follow (insertStep nodes n c) s w = some m → follow nodes s w = some m
  | [], _, _, _, _, h => h
  | c' :: t, s, m, hs, hm, h => by
    unfold follow at h ⊢
    cases hch : childOf (insertStep nodes n c) s c' with
    | none => rw [hch] at h; exact absurd h (by simp)
    | some a =>
      rw [hch] at h
      rcases insertStep_child_cases nodes n c hn hnone s c' a hch with hold | ⟨he1, he2, he3⟩
      · rw [hold]
        exact insertStep_follow_back hwf n c hn hnone t a m (hwf.edge_lt s c' a hold).1 hm h
      · exfalso
        subst he3
        cases t with
        | nil =>
          cases h
          omega
        | cons c'' t' =>
          unfold follow at h
          rw [show childOf (insertStep nodes n c) nodes.length c'' = none by
            unfold childOf
            rw [insertStep_get_new nodes n c hn]
            simp [ACNode.new, lookupChild]] at h
          exact absurd h (by simp)

theorem insertStep_wf {nodes : List ACNode} (hwf : TrieWF nodes) (n : Nat) (c : Char)
    (hn : n < nodes.length) (hnone : childOf nodes n c = none) :
    TrieWF (insertStep nodes n c) := by
  refine ⟨?_, ?_, ?_, ?_, ?_, ?_, ?_⟩
  · rw [insertStep_length]
    omega
  · intro k c' m h
    rcases insertStep_child_cases nodes n c hn hnone k c' m h with hold | ⟨-, -, he3⟩
    · have hb := hwf.edge_lt k c' m hold
      rw [insertStep_length]
      exact ⟨by omega, hb.2⟩
    · rw [insertStep_length]
      exact ⟨by omega, by omega⟩
  · intro k c' k' c'' m h h'
    rcases insertStep_child_cases nodes n c hn hnone k c' m h with hold | ⟨he1, he2, he3⟩ <;>
      rcases insertStep_child_cases nodes n c hn hnone k' c'' m h' with hold' | ⟨hf1, hf2, hf3⟩
    · exact hwf.parent_unique k c' k' c'' m hold hold'
    · subst hf3
      exact absurd (hwf.edge_lt k c' _ hold).1 (by omega)
    · subst he3
      exact absurd (hwf.edge_lt k' c'' _ hold').1 (by omega)
    · exact ⟨he1.trans hf1.symm, he2.trans hf2.symm⟩
  · intro k
    by_cases hkn : k = n
    · subst hkn
      rw [insertStep_get_n nodes k c hn]
      simp only [List.map_append]
      rw [List.nodup_append]
      refine ⟨hwf.keys_nodup k, by simp, ?_⟩
      intro a ha
      simp only [List.map_cons, List.map_nil, List.mem_singleton]
      rintro rfl
      rcases List.mem_map.mp ha with ⟨p, hp, hp1⟩
      exact lookupChild_none_key hnone p hp hp1
    · by_cases hknew : k = nodes.length
      · subst hknew
        rw [insertStep_get_new nodes n c hn]
        simp [ACNode.new]
      · rw [insertStep_get_other nodes n c k hkn hknew]
        exact hwf.keys_nodup k
  · have h0n : (0 : Nat) ≠ nodes.length := by omega
    by_cases h0 : (0 : Nat) = n
    · subst h0
      rw [insertStep_get_n nodes 0 c hn]
      exact hwf.root_output
    · rw [insertStep_get_other nodes n c 0 h0 h0n]
      exact hwf.root_output
  · intro k
    by_cases hkn : k = n
    · subst hkn
      rw [insertStep_get_n nodes k c hn]
      exact hwf.fail_none k
    · by_cases hknew : k = nodes.length
      · subst hknew
        rw [insertStep_get_new nodes n c hn]
        rfl
      · rw [insertStep_get_other nodes n c k hkn hknew]
        exact hwf.fail_none k
  · intro w m hfol p hp
    by_cases hm : m < nodes.length
    · have hback := insertStep_follow_back hwf n c hn hnone w 0 m hwf.size_pos hm hfol
      have hout : (getN (insertStep nodes n c) m).output = (getN nodes m).output := by
        by_cases hmn : m = n
        · subst hmn; rw [insertStep_get_n nodes m c hn]
        · rw [insertStep_get_other nodes n c m hmn (by omega)]
      rw [hout] at hp
      exact hwf.out_mem w m hback p hp
    · by_cases hmnew : m = nodes.length
      · subst hmnew
        rw [insertStep_get_new nodes n c hn] at hp
        simp [ACNode.new] at hp
      · rw [insertStep_get_other nodes n c m (by omega) hmnew] at hp
        have hgd : getN nodes m = ACNode.new := by
          simp only [getN]
          rw [List.get?_len_le (show nodes.length ≤ m by omega)]
          rfl
        rw [hgd] at hp
        simp [ACNode.new] at hp

theorem insertFrom_none {nodes : List ACNode} {n : Nat} {c : Char} (rest : Str)
    (h : childOf nodes n c = none) :
    insertFrom nodes n (c :: rest) = insertFrom (insertStep nodes n c) nodes.length rest := by
  conv_lhs => unfold insertFrom
  rw [h]
  rfl

theorem insertFrom_some {nodes : List ACNode} {n : Nat} {c : Char} {m : Nat} (rest : Str)
    (h : childOf nodes n c = some m) :
    insertFrom nodes n (c :: rest) = insertFrom nodes m rest := by
  conv_lhs => unfold insertFrom
  rw [h]

theorem insertFrom_master : ∀ (rest : Str) (nodes : List ACNode) (n : Nat) (w0 : Str),
    TrieWF nodes → follow nodes 0 w0 = some n →
    TrieWF (insertFrom nodes n rest).1 ∧
    (∀ (w : Str) (m : Nat), follow nodes 0 w = some m →
      follow (insertFrom nodes n rest).1 0 w = some m) ∧
    (∀ (w : Str) (m : Nat), m < nodes.length →
      follow (insertFrom nodes n rest).1 0 w = some m → follow nodes 0 w = some m) ∧
    (∀ m, m < nodes.length →
      (getN (insertFrom nodes n rest).1 m).output = (getN nodes m).output) ∧
    nodes.length ≤ (insertFrom nodes n rest).1.length ∧
    follow (insertFrom nodes n rest).1 0 (w0 ++ rest) = some (insertFrom nodes n rest).2 ∧
    (insertFrom nodes n rest).2 < (insertFrom nodes n rest).1.length
  | [], nodes, n, w0, hwf, hw0 => by
    refine ⟨hwf, fun w m h => h, fun w m _ h => h, fun m _ => rfl, Nat.le_refl _, ?_, ?_⟩
    · rw [List.append_nil]
      exact hw0
    · exact follow_lt hwf w0 0 n hwf.size_pos hw0
  | c :: rest, nodes, n, w0, hwf, hw0 => by
    cases hch : childOf nodes n c with
    | some m =>
      rw [insertFrom_some rest hch]
      have hw0c : follow nodes 0 (w0 ++ [c]) = some m := by
        rw [follow_snoc, hw0, Option.some_bind, hch]
      have ih := insertFrom_master rest nodes m (w0 ++ [c]) hwf hw0c
      refine ⟨ih.1, ih.2.1, ih.2.2.1, ih.2.2.2.1, ih.2.2.2.2.1, ?_, ih.2.2.2.2.2.2⟩
      rw [show w0 ++ c :: rest = (w0 ++ [c]) ++ rest by simp]
      exact ih.2.2.2.2.2.1
    | none =>
      have hn : n < nodes.length := follow_lt hwf w0 0 n hwf.size_pos hw0
      rw [insertFrom_none rest hch]
      have hwf2 := insertStep_wf hwf n c hn hch
      have hw0c : follow (insertStep nodes n c) 0 (w0 ++ [c]) = some nodes.length := by
        rw [follow_snoc, insertStep_follow_stab nodes n c hn w0 0 n hw0, Option.some_bind,
          insertStep_child_new nodes n c hn hch]
      have ih := insertFrom_master rest (insertStep nodes n c) nodes.length (w0 ++ [c])
        hwf2 hw0c
      refine ⟨ih.1, ?_, ?_, ?_, ?_, ?_, ih.2.2.2.2.2.2⟩
      · intro w m h
        exact ih.2.1 w m (insertStep_follow_stab nodes n c hn w 0 m h)
      · intro w m hm h
        have h2 := ih.2.2.1 w m (by rw [insertStep_length]; omega) h
        exact insertStep_follow_back hwf n c hn hch w 0 m hwf.size_pos hm h2
      · intro m hm
        have h2 := ih.2.2.2.1 m (by rw [insertStep_length]; omega)
        rw [h2]
        by_cases hmn : m = n
        · subst hmn; rw [insertStep_get_n nodes m c hn]
        · rw [insertStep_get_other nodes n c m hmn (by omega)]
      · have := ih.2.2.2.2.1
        rw [insertStep_length] at this
        omega
      · rw [show w0 ++ c :: rest = (w0 ++ [c]) ++ rest by simp]
        exact ih.2.2.2.2.2.1

theorem follow_modN_output : ∀ (w : Str) (l : List ACNode) (t s : Nat) (g : List Str → List Str),
    follow (modN (fun nd => { nd with output := g nd.output }) l t) s w = follow l s w
  | [], _, _, _, _ => rfl
  | c :: w, l, t, s, g => by
    unfold follow
    have hch : childOf (modN (fun nd => { nd with output := g nd.output }) l t) s c =
        childOf l s c := by
      unfold childOf
      by_cases hst : s = t
      · subst hst
        by_cases hlt : s < l.length
        · rw [getN_modN_eq _ l s hlt]
        · rw [modN_oob _ l s (Nat.le_of_not_lt hlt)]
      · rw [getN_modN_ne _ l t s hst]
    rw [hch]
    cases childOf l s c with
    | none => rfl
    | some a => exact follow_modN_output w l t a g

theorem TrieWF_empty : TrieWF AhoCorasick.empty.nodes := by
  refine ⟨by simp [AhoCorasick.empty], ?_, ?_, ?_, rfl, ?_, ?_⟩
  · intro n c m h
    rcases n with _ | k
    · simp [AhoCorasick.empty, getN, ACNode.new, childOf, lookupChild] at h
    · simp [AhoCorasick.empty, getN, ACNode.new, childOf, lookupChild] at h
  · intro n c n' c' m h _
    rcases n with _ | k
    · simp [AhoCorasick.empty, getN, ACNode.new, childOf, lookupChild] at h
    · simp [AhoCorasick.empty, getN, ACNode.new, childOf, lookupChild] at h
  · intro n
    rcases n with _ | k <;> simp [AhoCorasick.empty, getN, ACNode.new]
  · intro n
    rcases n with _ | k <;> simp [AhoCorasick.empty, getN, ACNode.new]
  · intro w n h p hp
    cases w with
    | nil =>
      cases h
      simp [AhoCorasick.empty, getN, ACNode.new] at hp
    | cons c t =>
      unfold follow at h
      rw [show childOf AhoCorasick.empty.nodes 0 c = none by
        simp [AhoCorasick.empty, getN, ACNode.new, childOf, lookupChild]] at h
      exact absurd h (by simp)

theorem addPattern_props (ac : AhoCorasick) (p : Str) (hwf : TrieWF ac.nodes) :
    TrieWF (ac.addPattern p).nodes ∧
    (∀ q, InOut ac.nodes q → InOut (ac.addPattern p).nodes q) ∧
    (p ≠ [] → InOut (ac.addPattern p).nodes (jsToLower p)) := by
  by_cases hp : p = []
  · subst hp
    rw [show AhoCorasick.addPattern ac [] = ac from rfl]
    exact ⟨hwf, fun q h => h, fun h => absurd rfl h⟩
  · have hm := insertFrom_master (jsToLower p) ac.nodes 0 [] hwf rfl
    rcases hm with ⟨hwf2, hstab, hback, hout, hlen, hfol, htlt⟩
    rw [List.nil_append] at hfol
    have hacn : (ac.addPattern p).nodes =
        modN (fun nd => { nd with output := nd.output ++ [jsToLower p] })
          (insertFrom ac.nodes 0 (jsToLower p)).1 (insertFrom ac.nodes 0 (jsToLower p)).2 := by
      unfold AhoCorasick.addPattern
      rw [if_neg hp]
    set ns := (insertFrom ac.nodes 0 (jsToLower p)).1 with hns
    set t := (insertFrom ac.nodes 0 (jsToLower p)).2 with ht
    have hfoleq : ∀ (w : Str) (s : Nat),
        follow (ac.addPattern p).nodes s w = follow ns s w := by
      intro w s
      rw [hacn]
      exact follow_modN_output w ns t s (fun o => o ++ [jsToLower p])
    have htne : t ≠ 0 := by
      intro h0
      rw [h0] at hfol
      exact hp (by simpa [jsToLower] using follow_zero hwf2 (jsToLower p) hfol)
    have hgetfs : ∀ m, getN (ac.addPattern p).nodes m =
        if m = t then { getN ns m with output := (getN ns m).output ++ [jsToLower p] }
        else getN ns m := by
      intro m
      rw [hacn]
      by_cases hmt : m = t
      · subst hmt
        rw [if_pos rfl, getN_modN_eq _ ns t htlt]
      · rw [if_neg hmt, getN_modN_ne _ ns t m hmt]
    refine ⟨⟨?_, ?_, ?_, ?_, ?_, ?_, ?_⟩, ?_, ?_⟩
    · rw [hacn, modN_length]
      exact hwf2.size_pos
    · intro n c m h
      have hch : childOf ns n c = some m := by
        unfold childOf at h ⊢
        rw [hgetfs n] at h
        by_cases hnt : n = t
        · rw [if_pos hnt] at h; exact h
        · rw [if_neg hnt] at h; exact h
      have := hwf2.edge_lt n c m hch
      rw [hacn, modN_length]
      exact this
    · intro n c n' c' m h h'
      have hch : ∀ k c'', childOf (ac.addPattern p).nodes k c'' = childOf ns k c'' := by
        intro k c''
        unfold childOf
        rw [hgetfs k]
        by_cases hkt : k = t
        · rw [if_pos hkt]
        · rw [if_neg hkt]
      rw [hch] at h
      rw [hch] at h'
      exact hwf2.parent_unique n c n' c' m h h'
    · intro n
      rw [hgetfs n]
      by_cases hnt : n = t
      · rw [if_pos hnt]
        exact hwf2.keys_nodup n
      · rw [if_neg hnt]
        exact hwf2.keys_nodup n
    · rw [hgetfs 0, if_neg (fun h => htne h.symm)]
      exact hwf2.root_output
    · intro n
      rw [hgetfs n]
      by_cases hnt : n = t
      · rw [if_pos hnt]
        exact hwf2.fail_none n
      · rw [if_neg hnt]
        exact hwf2.fail_none n
    · intro w m h q hq
      rw [hfoleq] at h
      rw [hgetfs m] at hq
      by_cases hmt : m = t
      · subst hmt
        rw [if_pos rfl] at hq
        simp only at hq
        rcases List.mem_append.mp hq with hq | hq
        · exact hwf2.out_mem w t h q hq
        · rcases List.mem_singleton.mp hq with rfl
          exact (follow_inj hwf2 w.length w (jsToLower p) t (Nat.le_refl _) h hfol).symm
      · rw [if_neg hmt] at hq
        exact hwf2.out_mem w m h q hq
    · intro q hq
      rcases hq with ⟨m, hqf, hqm⟩
      have hmlt : m < ac.nodes.length := follow_lt hwf q 0 m hwf.size_pos hqf
      refine ⟨m, ?_, ?_⟩
      · rw [hfoleq]
        exact hstab q m hqf
      · rw [hgetfs m]
        by_cases hmt : m = t
        · rw [if_pos hmt]
          subst hmt
          simp only [List.mem_append]
          left
          rw [hout t hmlt]
          exact hqm
        · rw [if_neg hmt]
          rw [hout m hmlt]
          exact hqm
    · intro _
      refine ⟨t, ?_, ?_⟩
      · rw [hfoleq]
        exact hfol
      · rw [hgetfs t, if_pos rfl]
        simp

theorem addPatterns_props : ∀ (ps : List Str) (ac : AhoCorasick), TrieWF ac.nodes →
    TrieWF (ac.addPatterns ps).nodes ∧
    (∀ q, InOut ac.nodes q → InOut (ac.addPatterns ps).nodes q) ∧
    (∀ p ∈ ps, p ≠ [] → InOut (ac.addPatterns ps).nodes (jsToLower p))
  | [], ac, hwf => ⟨hwf, fun _ h => h, fun p hp => absurd hp (by simp)⟩
  | p :: ps, ac, hwf => by
    have h1 := addPattern_props ac p hwf
    have ih := addPatterns_props ps (ac.addPattern p) h1.1
    refine ⟨ih.1, ?_, ?_⟩
    · intro q hq
      exact ih.2.1 q (h1.2.1 q hq)
    · intro q hq hqne
      rcases List.mem_cons.mp hq with rfl | hq2
      · exact ih.2.1 _ (h1.2.2 hqne)
      · exact ih.2.2 q hq2 hqne

/-! ## Enumeration of trie paths (for the BFS fuel bound) -/

theorem mem_of_lookupChild {ch : List (Char × Nat)} {c : Char} {m : Nat}
    (h : lookupChild ch c = some m) : (c, m) ∈ ch := by
  unfold lookupChild at h
  cases hf : ch.find? (fun p => p.1 = c) with
  | none => rw [hf] at h; exact absurd h (by simp)
  | some p =>
    rw [hf] at h
    have hm : p.2 = m := by simpa using h
    have hmem := List.mem_of_find?_eq_some hf
    have hkey : p.1 = c := by simpa using List.find?_some hf
    have hp : p = (c, m) := by
      cases p
      simp_all
    rw [hp] at hmem
    exact hmem

theorem subPaths_complete (nodes : List ACNode) :
    ∀ (fuel n : Nat) (v : Str), (follow nodes n v).isSome → v.length ≤ fuel →
      v ∈ subPaths nodes fuel n
  | fuel, n, [], _, _ => by cases fuel <;> simp [subPaths]
  | 0, _, c :: t, _, hlen => absurd hlen (by simp)
  | fuel + 1, n, c :: t, hp, hlen => by
    unfold follow at hp
    cases hch : childOf nodes n c with
    | none => rw [hch] at hp; exact absurd hp (by simp)
    | some m =>
      rw [hch] at hp
      have ih := subPaths_complete nodes fuel m t hp (by
        simp only [List.length_cons] at hlen
        omega)
      unfold subPaths
      refine List.mem_cons.mpr (Or.inr (List.mem_flatMap.mpr ⟨(c, m), ?_, ?_⟩))
      · exact mem_of_lookupChild hch
      · exact List.mem_map.mpr ⟨t, ih, rfl⟩

theorem subPaths_sound {nodes : List ACNode}
    (hk : ∀ n, ((getN nodes n).children.map Prod.fst).Nodup) :
    ∀ (fuel n : Nat) (v : Str), v ∈ subPaths nodes fuel n → (follow nodes n v).isSome
  | 0, n, v, hv => by
    have : v = [] := by simpa [subPaths] using hv
    subst this
    simp [follow]
  | fuel + 1, n, v, hv => by
    unfold subPaths at hv
    rcases List.mem_cons.mp hv with rfl | hv2
    · simp [follow]
    · rcases List.mem_flatMap.mp hv2 with ⟨cc, hcc, hmem⟩
      rcases List.mem_map.mp hmem with ⟨t, ht, rfl⟩
      have hch : childOf nodes n cc.1 = some cc.2 :=
        lookup_of_mem_children _ cc.1 cc.2 (hk n) (by cases cc; exact hcc)
      have ih := subPaths_sound hk fuel cc.2 t ht
      unfold follow
      rw [hch]
      exact ih

theorem subPaths_nodup {nodes : List ACNode}
    (hk : ∀ n, ((getN nodes n).children.map Prod.fst).Nodup) :
    ∀ (fuel n : Nat), (subPaths nodes fuel n).Nodup
  | 0, n => by simp [subPaths]
  | fuel + 1, n => by
    unfold subPaths
    refine List.nodup_cons.mpr ⟨?_, ?_⟩
    · intro hmem
      rcases List.mem_flatMap.mp hmem with ⟨cc, _, hmem2⟩
      rcases List.mem_map.mp hmem2 with ⟨t, _, hbad⟩
      exact List.cons_ne_nil _ _ hbad
    · rw [List.nodup_flatMap]
      refine ⟨?_, ?_⟩
      · intro cc _
        exact (subPaths_nodup hk fuel cc.2).map (fun a b hab => by
          simpa using hab)
      · have hpw : ((getN nodes n).children.map Prod.fst).Pairwise (· ≠ ·) := hk n
        rw [List.pairwise_map] at hpw
        refine hpw.imp ?_
        intro a b hne v hva hvb
        rcases List.mem_map.mp hva with ⟨t, _, rfl⟩
        rcases List.mem_map.mp hvb with ⟨t', _, hbad⟩
        exact hne (by injection hbad.symm)

/-! ## Effect of the BFS folds on the arena -/

theorem foldChildren_length (x : Nat) :
    ∀ (cs : List (Char × Nat)) (ns : List ACNode),
      (cs.foldl (fun a cc => processChild a x cc) ns).length = ns.length
  | [], _ => rfl
  | cc :: cs, ns => by
    rw [List.foldl_cons, foldChildren_length x cs (processChild ns x cc)]
    unfold processChild
    exact modN_length _ _ _

theorem initFold_length :
    ∀ (q : List Nat) (ns : List ACNode),
      (q.foldl (fun a i => modN (fun nd => { nd with fail := some 0 }) a i) ns).length =
        ns.length
  | [], _ => rfl
  | i :: q, ns => by
    rw [List.foldl_cons, initFold_length q _, modN_length]

theorem initFold_effect :
    ∀ (q : List Nat) (ns : List ACNode),
      (∀ k, k ∉ q →
        getN (q.foldl (fun a i => modN (fun nd => { nd with fail := some 0 }) a i) ns) k =
          getN ns k) ∧
      (∀ i ∈ q, i < ns.length →
        getN (q.foldl (fun a i => modN (fun nd => { nd with fail := some 0 }) a i) ns) i =
          { getN ns i with fail := some 0 })
  | [], ns => ⟨fun _ _ => rfl, fun i hi => absurd hi (by simp)⟩
  | j :: q, ns => by
    have ih := initFold_effect q (modN (fun nd => { nd with fail := some 0 }) ns j)
    constructor
    · intro k hk
      rw [List.foldl_cons, ih.1 k (fun h => hk (List.mem_cons.mpr (Or.inr h)))]
      exact getN_modN_ne _ _ _ _ (fun h => hk (List.mem_cons.mpr (Or.inl h)))
    · intro i hi hilt
      rw [List.foldl_cons]
      by_cases hiq : i ∈ q
      · rw [ih.2 i hiq (by rw [modN_length]; exact hilt)]
        by_cases hij : i = j
        · subst hij
          rw [getN_modN_eq _ _ _ hilt]
        · rw [getN_modN_ne _ _ _ _ hij]
      · rcases List.mem_cons.mp hi with hij | hiq2
        · subst hij
          rw [ih.1 i hiq, getN_modN_eq _ _ _ hilt]
        · exact absurd hiq2 hiq

theorem foldChildren_effect (base : List ACNode) (hwf : TrieWF base) (d : Nat) (hd : 1 ≤ d)
    (wx : Str) (hwxp : (follow base 0 wx).isSome) (hwxl : wx.length = d) :
    ∀ (cs : List (Char × Nat)) (ns : List ACNode),
      StructEq base ns →
      (∀ v : Str, (follow base 0 v).isSome → 1 ≤ v.length → v.length ≤ d →
        (getN ns (nodeAt base v)).fail = some (nodeAt base (lps base v))) →
      (∀ cc ∈ cs, childOf base (nodeAt base wx) cc.1 = some cc.2) →
      (cs.map Prod.snd).Nodup →
      (∀ cc ∈ cs, getN ns cc.2 = getN base cc.2) →
      (∀ cc ∈ cs, nodeAt base (lps base (wx ++ [cc.1])) ∉ cs.map Prod.snd) →
      (∀ k, k ∉ cs.map Prod.snd →
        getN (cs.foldl (fun a cc => processChild a (nodeAt base wx) cc) ns) k = getN ns k) ∧
      (∀ cc ∈ cs,
        getN (cs.foldl (fun a cc => processChild a (nodeAt base wx) cc) ns) cc.2 =
          { getN base cc.2 with
            fail := some (nodeAt base (lps base (wx ++ [cc.1]))),
            output := (getN base cc.2).output ++
              (getN ns (nodeAt base (lps base (wx ++ [cc.1])))).output })
  | [], ns, _, _, _, _, _, _ => ⟨fun _ _ => rfl, fun cc hcc => absurd hcc (by simp)⟩
  | cc :: cs, ns, hs, hfails, hsub, hnd, hun, hlps => by
    have hccsub := hsub cc (List.mem_cons_self cc cs)
    have hccpath : follow base 0 (wx ++ [cc.1]) = some cc.2 := path_snoc hwxp hccsub
    have hcclt : cc.2 < base.length := (hwf.edge_lt _ _ _ hccsub).1
    have hccne0 : cc.2 ≠ 0 := (hwf.edge_lt _ _ _ hccsub).2
    have hwxne : wx ≠ [] := by
      intro h
      rw [h] at hwxl
      simp at hwxl
      omega
    have hndc : cc.2 ∉ cs.map Prod.snd ∧ (cs.map Prod.snd).Nodup := by
      rw [List.map_cons] at hnd
      exact List.nodup_cons.mp hnd
    have hxf : (getN ns (nodeAt base wx)).fail = some (nodeAt base (lps base wx)) :=
      hfails wx hwxp (by omega) (le_of_eq hwxl)
    have hlpslen := lps_length_lt base wx hwxne
    have hchase := chase_correct base ns hs (hwf.fail_none 0) d hfails cc.1 ns.length
      (lps base wx) (lps_path base wx) (by omega)
      (by rw [hs.1]; exact path_length_lt hwf _ (lps_path base wx))
    have hf : chaseFail ns cc.1 ns.length (getN ns (nodeAt base wx)).fail =
        nodeAt base (lps base (wx ++ [cc.1])) := by
      rw [hxf, hchase, lps_snoc base wx cc.1 hwxne]
    have hstep : processChild ns (nodeAt base wx) cc =
        modN (fun nd => { nd with
            fail := some (nodeAt base (lps base (wx ++ [cc.1]))),
            output := nd.output ++
              (getN ns (nodeAt base (lps base (wx ++ [cc.1])))).output })
          ns cc.2 := by
      simp only [processChild]
      rw [hf]
    have hlen' : (processChild ns (nodeAt base wx) cc).length = ns.length := by
      rw [hstep]
      exact modN_length _ _ _
    have hcclt' : cc.2 < ns.length := by
      rw [hs.1]
      exact hcclt
    have hs' : StructEq base (processChild ns (nodeAt base wx) cc) := by
      refine ⟨by rw [hlen', hs.1], ?_, ?_⟩
      · intro n
        rw [hstep]
        by_cases hn : n = cc.2
        · subst hn
          rw [getN_modN_eq _ _ _ hcclt']
          simpa using hs.2.1 cc.2
        · rw [getN_modN_ne _ _ _ _ hn]
          exact hs.2.1 n
      · rw [hstep, getN_modN_ne _ _ _ _ (Ne.symm hccne0)]
        exact hs.2.2
    have hfails' : ∀ v : Str, (follow base 0 v).isSome → 1 ≤ v.length → v.length ≤ d →
        (getN (processChild ns (nodeAt base wx) cc) (nodeAt base v)).fail =
          some (nodeAt base (lps base v)) := by
      intro v hv h1 h2
      rw [hstep, getN_modN_ne]
      · exact hfails v hv h1 h2
      · intro heq
        have h3 : follow base 0 v = some cc.2 := by rw [follow_eq_nodeAt hv, heq]
        have h4 := follow_inj hwf (wx ++ [cc.1]).length (wx ++ [cc.1]) v cc.2
          (Nat.le_refl _) hccpath h3
        rw [← h4] at h2
        simp only [List.length_append, List.length_singleton] at h2
        omega
    have hun' : ∀ cc' ∈ cs, getN (processChild ns (nodeAt base wx) cc) cc'.2 =
        getN base cc'.2 := by
      intro cc' hcc'
      rw [hstep, getN_modN_ne]
      · exact hun cc' (List.mem_cons.mpr (Or.inr hcc'))
      · intro heq
        exact hndc.1 (heq ▸ List.mem_map.mpr ⟨cc', hcc', rfl⟩)
    have ih := foldChildren_effect base hwf d hd wx hwxp hwxl cs
      (processChild ns (nodeAt base wx) cc) hs' hfails'
      (fun cc' h => hsub cc' (List.mem_cons.mpr (Or.inr h)))
      hndc.2 hun'
      (fun cc' h hmem => hlps cc' (List.mem_cons.mpr (Or.inr h))
        (by rw [List.map_cons]; exact List.mem_cons.mpr (Or.inr hmem)))
    constructor
    · intro k hk
      rw [List.map_cons] at hk
      have hk1 : k ≠ cc.2 := fun h => hk (h ▸ List.mem_cons_self _ _)
      have hk2 : k ∉ cs.map Prod.snd := fun h => hk (List.mem_cons.mpr (Or.inr h))
      rw [List.foldl_cons, ih.1 k hk2, hstep, getN_modN_ne _ _ _ _ hk1]
    · intro cc' hcc'
      rcases List.mem_cons.mp hcc' with rfl | hcc2
      · rw [List.foldl_cons, ih.1 cc'.2 hndc.1, hstep, getN_modN_eq _ _ _ hcclt',
          hun cc' (List.mem_cons_self cc' cs)]
      · rw [List.foldl_cons, ih.2 cc' hcc2, hstep]
        have hne : nodeAt base (lps base (wx ++ [cc'.1])) ≠ cc.2 := by
          intro heq
          exact hlps cc' (List.mem_cons.mpr (Or.inr hcc2))
            (by rw [List.map_cons]; exact heq ▸ List.mem_cons_self _ _)
        rw [getN_modN_ne _ _ _ _ hne]

theorem nodeAt_inj {base : List ACNode} (hwf : TrieWF base) {u v : Str}
    (hu : (follow base 0 u).isSome) (hv : (follow base 0 v).isSome)
    (heq : nodeAt base u = nodeAt base v) : u = v := by
  have h1 := follow_eq_nodeAt hu
  have h2 := follow_eq_nodeAt hv
  rw [heq] at h1
  exact follow_inj hwf u.length u v _ (Nat.le_refl _) h1 h2

/-- One dequeue of the BFS: processing the head of the depth-`d` layer
re-establishes the invariant with that node's children appended to the
depth-`d + 1` layer. -/
theorem bfs_step (base : List ACNode) (hwf : TrieWF base) (fuel : Nat)
    (ih : ∀ (d : Nat) (A B P : List Str) (cur : List ACNode), BfsInv base d A B P cur →
      A.length + B.length + P.length < fuel →
      BfsDone base (bfsLoop fuel ((A ++ B).map (nodeAt base)) cur))
    (d : Nat) (wx : Str) (A' B P : List Str) (cur : List ACNode)
    (hinv : BfsInv base d (wx :: A') B P cur)
    (hfuel : (wx :: A').length + B.length + P.length < fuel + 1) :
    BfsDone base (bfsLoop (fuel + 1) (((wx :: A') ++ B).map (nodeAt base)) cur) := by
  obtain ⟨hd, hs, s3, s4, s5, s6, s7, s8, s8a, ndA, ndB, ndP⟩ := hinv
  have hwx := s3 wx (List.mem_cons_self wx A')
  have hwxp : (follow base 0 wx).isSome := hwx.1
  have hwxl : wx.length = d := hwx.2
  have hwxne : wx ≠ [] := by
    intro h
    rw [h] at hwxl
    simp at hwxl
    omega
  have hcs0 : (getN cur (nodeAt base wx)).children = (getN base (nodeAt base wx)).children :=
    hs.2.1 _
  set cs := (getN base (nodeAt base wx)).children with hcsdef
  have hsub : ∀ cc ∈ cs, childOf base (nodeAt base wx) cc.1 = some cc.2 := by
    intro cc hcc
    exact lookup_of_mem_children _ cc.1 cc.2 (hwf.keys_nodup _) (by cases cc; exact hcc)
  have hnodech : ∀ cc ∈ cs, nodeAt base (wx ++ [cc.1]) = cc.2 := by
    intro cc hcc
    have := path_snoc hwxp (hsub cc hcc)
    simp [nodeAt, this]
  have hWpath : ∀ cc ∈ cs, (follow base 0 (wx ++ [cc.1])).isSome := by
    intro cc hcc
    rw [path_snoc hwxp (hsub cc hcc)]
    rfl
  have hWlen : ∀ cc : Char × Nat, (wx ++ [cc.1]).length = d + 1 := by
    intro cc
    simp [hwxl]
  have hkeysnd := hwf.keys_nodup (nodeAt base wx)
  have hcsnd : cs.Nodup := hkeysnd.of_map
  have hkeyinj := (List.nodup_map_iff_inj_on hcsnd).mp hkeysnd
  have hndT : (cs.map Prod.snd).Nodup := by
    rw [List.nodup_map_iff_inj_on hcsnd]
    intro cc hcc cc' hcc' heq
    have h1 : wx ++ [cc.1] = wx ++ [cc'.1] := by
      apply nodeAt_inj hwf (hWpath cc hcc) (hWpath cc' hcc')
      rw [hnodech cc hcc, hnodech cc' hcc', heq]
    have h2 : cc.1 = cc'.1 := by simpa using List.append_cancel_left h1
    exact hkeyinj cc hcc cc' hcc' h2
  have hWsnotB : ∀ cc ∈ cs, wx ++ [cc.1] ∉ B := by
    intro cc hcc hmem
    apply (s5 _ (hWpath cc hcc) (hWlen cc)).mp hmem
    rw [List.dropLast_concat]
    exact List.mem_cons_self _ _
  have hUn0 : ∀ cc ∈ cs, getN cur cc.2 = getN base cc.2 := by
    intro cc hcc
    rw [← hnodech cc hcc]
    apply s7 _ (hWpath cc hcc) (by simp)
    rintro (hle | hB)
    · rw [hWlen cc] at hle
      omega
    · exact hWsnotB cc hcc hB
  have hLps0 : ∀ cc ∈ cs, nodeAt base (lps base (wx ++ [cc.1])) ∉ cs.map Prod.snd := by
    intro cc hcc hmem
    rcases List.mem_map.mp hmem with ⟨cc', hcc', heq⟩
    have hlpsp := lps_path base (wx ++ [cc.1])
    have heq2 : nodeAt base (wx ++ [cc'.1]) = nodeAt base (lps base (wx ++ [cc.1])) := by
      rw [hnodech cc' hcc', heq]
    have h3 := nodeAt_inj hwf (hWpath cc' hcc') hlpsp heq2
    have h4 := congrArg List.length h3
    have h5 := lps_length_lt base (wx ++ [cc.1]) (by simp)
    rw [hWlen cc'] at h4
    rw [hWlen cc] at h5
    omega
  have hfails0 : ∀ v : Str, (follow base 0 v).isSome → 1 ≤ v.length → v.length ≤ d →
      (getN cur (nodeAt base v)).fail = some (nodeAt base (lps base v)) := by
    intro v hv h1 h2
    exact (s6 v hv h1 (Or.inl h2)).1
  have heff := foldChildren_effect base hwf d hd wx hwxp hwxl cs cur hs hfails0 hsub hndT
    hUn0 hLps0
  set Ws := cs.map (fun cc => wx ++ [cc.1]) with hWsdef
  set P' := P.filter (fun v => decide (v ∉ Ws)) with hPdef
  set cur' := cs.foldl (fun a cc => processChild a (nodeAt base wx) cc) cur with hcurdef
  have hWsP : ∀ v ∈ Ws, v ∈ P := by
    intro v hv
    rw [hWsdef] at hv
    rcases List.mem_map.mp hv with ⟨cc, hcc, heq⟩
    subst heq
    exact (s8 _ (hWpath cc hcc) (by simp)).mpr
      ⟨by rw [hWlen cc], hWsnotB cc hcc⟩
  have hnotT : ∀ v : Str, (follow base 0 v).isSome → v ∉ Ws →
      nodeAt base v ∉ cs.map Prod.snd := by
    intro v hv hvW hmem
    rcases List.mem_map.mp hmem with ⟨cc, hcc, heq⟩
    apply hvW
    rw [hWsdef]
    exact List.mem_map.mpr ⟨cc, hcc,
      nodeAt_inj hwf (hWpath cc hcc) hv (by rw [hnodech cc hcc, heq])⟩
  have hnotWs : ∀ v : Str, v.length ≤ d ∨ v ∈ B → v ∉ Ws := by
    intro v hv hmem
    rw [hWsdef] at hmem
    rcases List.mem_map.mp hmem with ⟨cc, hcc, heq⟩
    rcases hv with hle | hB
    · rw [← heq, hWlen cc] at hle
      omega
    · rw [← heq] at hB
      exact hWsnotB cc hcc hB
  have h0not : (0 : Nat) ∉ cs.map Prod.snd := by
    intro hmem
    rcases List.mem_map.mp hmem with ⟨cc, hcc, heq⟩
    exact (hwf.edge_lt _ _ _ (hsub cc hcc)).2 heq
  have hlen' : cur'.length = base.length := by
    rw [hcurdef, foldChildren_length]
    exact hs.1
  have hs' : StructEq base cur' := by
    refine ⟨hlen', ?_, ?_⟩
    · intro n
      by_cases hn : n ∈ cs.map Prod.snd
      · rcases List.mem_map.mp hn with ⟨cc, hcc, rfl⟩
        rw [heff.2 cc hcc]
      · rw [heff.1 n hn]
        exact hs.2.1 n
    · rw [heff.1 0 h0not]
      exact hs.2.2
  have s4' : ∀ w ∈ B ++ Ws, (follow base 0 w).isSome ∧ w.length = d + 1 := by
    intro w hw
    rcases List.mem_append.mp hw with hB | hW
    · exact s4 w hB
    · rw [hWsdef] at hW
      rcases List.mem_map.mp hW with ⟨cc, hcc, rfl⟩
      exact ⟨hWpath cc hcc, hWlen cc⟩
  have s5' : ∀ w : Str, (follow base 0 w).isSome → w.length = d + 1 →
      (w ∈ B ++ Ws ↔ w.dropLast ∉ A') := by
    intro w hwp hwl
    have hwne : w ≠ [] := by
      intro h
      rw [h] at hwl
      simp at hwl
    by_cases hpar : w.dropLast = wx
    · constructor
      · intro _
        rw [hpar]
        exact (List.nodup_cons.mp ndA).1
      · intro _
        refine List.mem_append.mpr (Or.inr ?_)
        have hw2 : wx ++ [w.getLast hwne] = w := by
          rw [← hpar]
          exact List.dropLast_append_getLast hwne
        have hch : ∃ m, childOf base (nodeAt base wx) (w.getLast hwne) = some m := by
          have hsome := hwp
          rw [← hw2, follow_snoc, follow_eq_nodeAt hwxp, Option.some_bind] at hsome
          cases hc : childOf base (nodeAt base wx) (w.getLast hwne) with
          | none => rw [hc] at hsome; exact absurd hsome (by simp)
          | some m => exact ⟨m, rfl⟩
        rcases hch with ⟨m, hm⟩
        have hmem : (w.getLast hwne, m) ∈ cs := mem_of_lookupChild hm
        rw [hWsdef]
        exact List.mem_map.mpr ⟨(w.getLast hwne, m), hmem, by simpa using hw2⟩
    · have hnW : w ∉ Ws := by
        rw [hWsdef]
        intro hmem
        rcases List.mem_map.mp hmem with ⟨cc, hcc, heq⟩
        apply hpar
        rw [← heq, List.dropLast_concat]
      rw [List.mem_append]
      constructor
      · rintro (hB | hW)
        · intro hA'
          exact (s5 w hwp hwl).mp hB (List.mem_cons.mpr (Or.inr hA'))
        · exact absurd hW hnW
      · intro hA'
        left
        apply (s5 w hwp hwl).mpr
        intro hmem
        rcases List.mem_cons.mp hmem with heq | hmem2
        · exact hpar heq
        · exact hA' hmem2
  have s6' : ∀ w : Str, (follow base 0 w).isSome → 1 ≤ w.length →
      (w.length ≤ d ∨ w ∈ B ++ Ws) → FailsOut base cur' w := by
    intro w hwp h1 hcase
    by_cases hold : w.length ≤ d ∨ w ∈ B
    · have hW : w ∉ Ws := hnotWs w hold
      have ht1 : nodeAt base w ∉ cs.map Prod.snd := hnotT w hwp hW
      have hlpsle : (lps base w).length ≤ d := by
        have hlt := lps_length_lt base w (by intro h; rw [h] at h1; simp at h1)
        rcases hold with hle | hB
        · omega
        · have := (s4 w hB).2
          omega
      have ht2 : nodeAt base (lps base w) ∉ cs.map Prod.snd :=
        hnotT _ (lps_path base w) (hnotWs _ (Or.inl hlpsle))
      have hfo := s6 w hwp h1 hold
      refine ⟨?_, ?_⟩
      · rw [heff.1 _ ht1]
        exact hfo.1
      · rw [heff.1 _ ht1, heff.1 _ ht2]
        exact hfo.2
    · have hW : w ∈ Ws := by
        rcases hcase with hle | hmem
        · exact absurd (Or.inl hle) hold
        · rcases List.mem_append.mp hmem with hB | hW
          · exact absurd (Or.inr hB) hold
          · exact hW
      rw [hWsdef] at hW
      rcases List.mem_map.mp hW with ⟨cc, hcc, heq⟩
      subst heq
      refine ⟨?_, ?_⟩
      · rw [hnodech cc hcc, heff.2 cc hcc]
      · rw [hnodech cc hcc, heff.2 cc hcc, heff.1 _ (hLps0 cc hcc)]
  have s7' : ∀ w : Str, (follow base 0 w).isSome → 1 ≤ w.length →
      ¬(w.length ≤ d ∨ w ∈ B ++ Ws) →
      getN cur' (nodeAt base w) = getN base (nodeAt base w) := by
    intro w hwp h1 hcase
    have hna : ¬w.length ≤ d := fun h => hcase (Or.inl h)
    have hnB : w ∉ B := fun h => hcase (Or.inr (List.mem_append.mpr (Or.inl h)))
    have hnW : w ∉ Ws := fun h => hcase (Or.inr (List.mem_append.mpr (Or.inr h)))
    rw [heff.1 _ (hnotT w hwp hnW)]
    exact s7 w hwp h1 (fun h => h.elim hna hnB)
  have s8' : ∀ w : Str, (follow base 0 w).isSome → 1 ≤ w.length →
      (w ∈ P' ↔ (d + 1 ≤ w.length ∧ w ∉ B ++ Ws)) := by
    intro w hwp h1
    rw [hPdef, List.mem_filter]
    simp only [decide_eq_true_eq]
    rw [s8 w hwp h1, List.mem_append]
    constructor
    · rintro ⟨⟨hle, hB⟩, hW⟩
      exact ⟨hle, fun h => h.elim hB hW⟩
    · rintro ⟨hle, h⟩
      exact ⟨⟨hle, fun hB => h (Or.inl hB)⟩, fun hW => h (Or.inr hW)⟩
  have s8a' : ∀ w ∈ P', (follow base 0 w).isSome ∧ 1 ≤ w.length := by
    intro w hw
    rw [hPdef] at hw
    exact s8a w (List.mem_of_mem_filter hw)
  have ndA' : A'.Nodup := (List.nodup_cons.mp ndA).2
  have ndWs : Ws.Nodup := by
    rw [hWsdef, List.nodup_map_iff_inj_on hcsnd]
    intro cc hcc cc' hcc' heq
    have h2 : cc.1 = cc'.1 := by simpa using List.append_cancel_left heq
    exact hkeyinj cc hcc cc' hcc' h2
  have ndB' : (B ++ Ws).Nodup := by
    rw [List.nodup_append]
    refine ⟨ndB, ndWs, ?_⟩
    intro v hvB hvW
    rw [hWsdef] at hvW
    rcases List.mem_map.mp hvW with ⟨cc, hcc, heq⟩
    rw [← heq] at hvB
    exact hWsnotB cc hcc hvB
  have ndP' : P'.Nodup := by
    rw [hPdef]
    exact ndP.filter _
  have hperm := List.filter_append_perm (fun v => decide (v ∈ Ws)) P
  have hlen1 : (P.filter (fun v => decide (v ∈ Ws))).length +
      (P.filter (fun x => !decide (x ∈ Ws))).length = P.length := by
    have := hperm.length_eq
    simpa using this
  have hPP' : P' = P.filter (fun x => !decide (x ∈ Ws)) := by
    rw [hPdef]
    apply List.filter_congr
    intro a _
    simp [decide_not]
  have hlen2 : (P.filter (fun v => decide (v ∈ Ws))).length = Ws.length := by
    have hperm2 : List.Perm (P.filter (fun v => decide (v ∈ Ws))) Ws := by
      rw [List.perm_ext_iff_of_nodup (ndP.filter _) ndWs]
      intro v
      rw [List.mem_filter]
      simp only [decide_eq_true_eq]
      exact ⟨And.right, fun hv => ⟨hWsP v hv, hv⟩⟩
    exact hperm2.length_eq
  have h5 : P'.length = (P.filter (fun x => !decide (x ∈ Ws))).length := by
    rw [hPP']
  have hmeas : A'.length + (B ++ Ws).length + P'.length < fuel := by
    simp only [List.length_append, List.length_cons] at hfuel ⊢
    omega
  have hq : ((wx :: A') ++ B).map (nodeAt base) =
      nodeAt base wx :: (A' ++ B).map (nodeAt base) := by
    simp
  have hqeq : (A' ++ B).map (nodeAt base) ++ cs.map (fun x => x.2) =
      (A' ++ (B ++ Ws)).map (nodeAt base) := by
    have hme : cs.map (fun x : Char × Nat => x.2) = Ws.map (nodeAt base) := by
      rw [hWsdef, List.map_map]
      apply List.map_congr_left
      intro cc hcc
      exact (hnodech cc hcc).symm
    rw [hme]
    simp [List.map_append]
  rw [hq]
  simp only [bfsLoop, processCurrent]
  rw [hcs0, hqeq]
  exact ih d A' (B ++ Ws) P' cur'
    ⟨hd, hs', fun w hw => s3 w (List.mem_cons.mpr (Or.inr hw)), s4', s5', s6', s7', s8', s8a',
      ndA', ndB', ndP'⟩ hmeas

/-- The BFS of `build` establishes `FailsOut` everywhere, by induction on the
fuel: dequeue the head of the current layer, or shift to the next depth when
the current layer is exhausted. -/
theorem bfsLoop_inv (base : List ACNode) (hwf : TrieWF base) :
    ∀ (fuel d : Nat) (A B P : List Str) (cur : List ACNode), BfsInv base d A B P cur →
      A.length + B.length + P.length < fuel →
      BfsDone base (bfsLoop fuel ((A ++ B).map (nodeAt base)) cur) := by
  intro fuel
  induction fuel with
  | zero =>
    intro d A B P cur _ hfuel
    omega
  | succ fuel ih =>
    intro d A B P cur hinv hfuel
    rcases A with _ | ⟨wx, A'⟩
    · rcases B with _ | ⟨b, B'⟩
      · obtain ⟨hd, hs, s3, s4, s5, s6, s7, s8, s8a, ndA, ndB, ndP⟩ := hinv
        show BfsDone base cur
        refine ⟨hs, ?_⟩
        intro w hwp h1
        have hle : w.length ≤ d := by
          by_contra hgt
          push_neg at hgt
          have hwp2 := hwp
          rw [(List.take_append_drop (d + 1) w).symm] at hwp2
          have hp : (follow base 0 (w.take (d + 1))).isSome :=
            isSome_follow_of_append hwp2
          have hlen : (w.take (d + 1)).length = d + 1 := by
            simp
            omega
          have hB := (s5 _ hp hlen).mpr (by simp)
          simp at hB
        exact s6 w hwp h1 (Or.inl hle)
      · obtain ⟨hd, hs, s3, s4, s5, s6, s7, s8, s8a, ndA, ndB, ndP⟩ := hinv
        have hBall : ∀ w : Str, (follow base 0 w).isSome → w.length = d + 1 →
            w ∈ b :: B' := by
          intro w hwp hwl
          exact (s5 w hwp hwl).mpr (by simp)
        have hinv' : BfsInv base (d + 1) (b :: B') [] P cur := by
          refine ⟨by omega, hs, s4, ?_, ?_, ?_, ?_, ?_, s8a, ndB, List.nodup_nil, ndP⟩
          · intro w hw
            simp at hw
          · intro w hwp hwl
            simp only [List.not_mem_nil, false_iff, not_not]
            have hwne : w ≠ [] := by
              intro h
              rw [h] at hwl
              simp at hwl
            have hwp2 := hwp
            rw [← List.dropLast_append_getLast hwne] at hwp2
            apply hBall w.dropLast (isSome_follow_of_append hwp2)
            rw [List.length_dropLast, hwl]
            omega
          · intro w hwp h1 hcase
            apply s6 w hwp h1
            rcases hcase with hle | hmem
            · rcases Nat.lt_or_ge w.length (d + 1) with hlt | hge
              · exact Or.inl (by omega)
              · exact Or.inr (hBall w hwp (by omega))
            · simp at hmem
          · intro w hwp h1 hcase
            apply s7 w hwp h1
            rintro (hle | hB)
            · exact hcase (Or.inl (by omega))
            · exact hcase (Or.inl (by have := (s4 w hB).2; omega))
          · intro w hwp h1
            rw [s8 w hwp h1]
            simp only [List.not_mem_nil, not_false_iff, and_true]
            constructor
            · rintro ⟨hle, hB⟩
              rcases Nat.lt_or_ge w.length (d + 2) with hlt | hge
              · exact absurd (hBall w hwp (by omega)) hB
              · omega
            · intro hle
              refine ⟨by omega, ?_⟩
              intro hB
              have := (s4 w hB).2
              omega
        have hfuel' : (b :: B').length + ([] : List Str).length + P.length < fuel + 1 := by
          simp at hfuel ⊢
          omega
        have hdone := bfs_step base hwf fuel ih (d + 1) b B' [] P cur hinv' hfuel'
        simpa using hdone
    · exact bfs_step base hwf fuel ih d wx A' B P cur hinv hfuel

/-- `build()` on a well-formed unbuilt trie: the BFS terminates with every
failure link pointing at the longest proper path-suffix and every output
merged along the failure chain. -/
theorem build_done (ac : AhoCorasick) (hwf : TrieWF ac.nodes) (hnb : ac.built = false) :
    BfsDone ac.nodes ac.build.nodes := by
  have hsub0 : ∀ cc ∈ (getN ac.nodes 0).children, childOf ac.nodes 0 cc.1 = some cc.2 := by
    intro cc hcc
    exact lookup_of_mem_children _ cc.1 cc.2 (hwf.keys_nodup 0) (by cases cc; exact hcc)
  have hfol1 : ∀ cc ∈ (getN ac.nodes 0).children, follow ac.nodes 0 [cc.1] = some cc.2 := by
    intro cc hcc
    simp [follow, hsub0 cc hcc]
  have hnode1 : ∀ cc ∈ (getN ac.nodes 0).children, nodeAt ac.nodes [cc.1] = cc.2 := by
    intro cc hcc
    simp [nodeAt, hfol1 cc hcc]
  have hedge1 : ∀ c : Char, (follow ac.nodes 0 [c]).isSome →
      ∃ m, childOf ac.nodes 0 c = some m ∧ (c, m) ∈ (getN ac.nodes 0).children ∧
        nodeAt ac.nodes [c] = m := by
    intro c hv
    unfold follow at hv
    cases hc : childOf ac.nodes 0 c with
    | none => rw [hc] at hv; exact absurd hv (by simp)
    | some m =>
      refine ⟨m, rfl, mem_of_lookupChild hc, ?_⟩
      rw [hc] at hv
      have : follow ac.nodes 0 [c] = some m := by
        simp [follow, hc]
      simp [nodeAt, this]
  have hA0all : ∀ v : Str, (follow ac.nodes 0 v).isSome → v.length = 1 →
      v ∈ (getN ac.nodes 0).children.map (fun cc => ([cc.1] : Str)) := by
    intro v hv hl
    rcases v with _ | ⟨c, t⟩
    · simp at hl
    · rcases t with _ | ⟨c2, t2⟩
      · rcases hedge1 c hv with ⟨m, _, hmem, _⟩
        exact List.mem_map.mpr ⟨(c, m), hmem, rfl⟩
      · simp at hl
  have heff := initFold_effect ((getN ac.nodes 0).children.map (fun x => x.2)) ac.nodes
  have hmemRC : ∀ cc ∈ (getN ac.nodes 0).children,
      cc.2 ∈ (getN ac.nodes 0).children.map (fun x => x.2) := by
    intro cc hcc
    exact List.mem_map.mpr ⟨cc, hcc, rfl⟩
  have h0notRC : (0 : Nat) ∉ (getN ac.nodes 0).children.map (fun x => x.2) := by
    intro hmem
    rcases List.mem_map.mp hmem with ⟨cc, hcc, heq⟩
    exact (hwf.edge_lt _ _ _ (hsub0 cc hcc)).2 heq
  have hlps1 : ∀ c : Char, lps ac.nodes [c] = [] := by
    intro c
    show longestPathSuffix ac.nodes [] = []
    unfold longestPathSuffix
    simp [List.tails, List.find?, follow]
  have hnotRC : ∀ w : Str, (follow ac.nodes 0 w).isSome → 2 ≤ w.length →
      nodeAt ac.nodes w ∉ (getN ac.nodes 0).children.map (fun x => x.2) := by
    intro w hwp h2 hmem
    rcases List.mem_map.mp hmem with ⟨cc, hcc, heq⟩
    have h3 : (follow ac.nodes 0 [cc.1]).isSome := by
      rw [hfol1 cc hcc]
      rfl
    have h4 := nodeAt_inj hwf hwp h3 (by rw [hnode1 cc hcc, heq])
    rw [h4] at h2
    simp at h2
  have hs0 : StructEq ac.nodes
      (((getN ac.nodes 0).children.map (fun x => x.2)).foldl
        (fun ns i => modN (fun nd => { nd with fail := some 0 }) ns i) ac.nodes) := by
    refine ⟨initFold_length _ _, ?_, ?_⟩
    · intro n
      by_cases hn : n ∈ (getN ac.nodes 0).children.map (fun x => x.2)
      · rcases List.mem_map.mp hn with ⟨cc, hcc, rfl⟩
        rw [heff.2 _ (hmemRC cc hcc) (hwf.edge_lt _ _ _ (hsub0 cc hcc)).1]
      · rw [heff.1 n hn]
    · rw [heff.1 0 h0notRC]
  have hinv : BfsInv ac.nodes 1
      ((getN ac.nodes 0).children.map (fun cc => ([cc.1] : Str))) []
      ((subPaths ac.nodes ac.nodes.length 0).filter (fun v => decide (2 ≤ v.length)))
      (((getN ac.nodes 0).children.map (fun x => x.2)).foldl
        (fun ns i => modN (fun nd => { nd with fail := some 0 }) ns i) ac.nodes) := by
    refine ⟨Nat.le_refl 1, hs0, ?_, ?_, ?_, ?_, ?_, ?_, ?_, ?_, List.nodup_nil, ?_⟩
    · intro w hw
      rcases List.mem_map.mp hw with ⟨cc, hcc, rfl⟩
      constructor
      · rw [hfol1 cc hcc]
        rfl
      · rfl
    · intro w hw
      simp at hw
    · intro w hwp hwl
      simp only [List.not_mem_nil, false_iff, not_not]
      have hwne : w ≠ [] := by
        intro h
        rw [h] at hwl
        simp at hwl
      have hwp2 := hwp
      rw [← List.dropLast_append_getLast hwne] at hwp2
      apply hA0all w.dropLast (isSome_follow_of_append hwp2)
      rw [List.length_dropLast, hwl]
    · intro w hwp h1 hcase
      have hl1 : w.length = 1 := by
        rcases hcase with hle | hmem
        · omega
        · simp at hmem
      rcases w with _ | ⟨c, t⟩
      · simp at hl1
      · rcases t with _ | ⟨c2, t2⟩
        · rcases hedge1 c hwp with ⟨m, hm, hmem, hnm⟩
          have hmlt : m < ac.nodes.length := (hwf.edge_lt _ _ _ hm).1
          have hmRC : m ∈ (getN ac.nodes 0).children.map (fun x => x.2) :=
            List.mem_map.mpr ⟨(c, m), hmem, rfl⟩
          have hnil : nodeAt ac.nodes ([] : Str) = 0 := rfl
          refine ⟨?_, ?_⟩
          · rw [hnm, heff.2 m hmRC hmlt, hlps1 c]
            rfl
          · rw [hnm, heff.2 m hmRC hmlt, hlps1 c, hnil]
            show (getN ac.nodes m).output = (getN ac.nodes m).output ++ _
            rw [heff.1 0 h0notRC, hwf.root_output, List.append_nil]
        · simp at hl1
    · intro w hwp h1 hcase
      have h2 : 2 ≤ w.length := by
        rcases Nat.lt_or_ge w.length 2 with hlt | hge
        · exact absurd (Or.inl (by omega)) hcase
        · exact hge
      exact heff.1 _ (hnotRC w hwp h2)
    · intro w hwp h1
      rw [List.mem_filter]
      simp only [decide_eq_true_eq, List.not_mem_nil, not_false_iff, and_true]
      constructor
      · exact And.right
      · intro h2
        refine ⟨?_, h2⟩
        exact subPaths_complete ac.nodes ac.nodes.length 0 w hwp
          (Nat.le_of_lt (path_length_lt hwf w hwp))
    · intro w hw
      rw [List.mem_filter] at hw
      refine ⟨subPaths_sound hwf.keys_nodup ac.nodes.length 0 w hw.1, ?_⟩
      have := hw.2
      simp only [decide_eq_true_eq] at this
      omega
    · rw [List.nodup_map_iff_inj_on (hwf.keys_nodup 0).of_map]
      intro cc hcc cc' hcc' heq
      have h2 : cc.1 = cc'.1 := by simpa using heq
      exact ((List.nodup_map_iff_inj_on (hwf.keys_nodup 0).of_map).mp
        (hwf.keys_nodup 0)) cc hcc cc' hcc' h2
    · exact (subPaths_nodup hwf.keys_nodup ac.nodes.length 0).filter _
  have hmeas : ((getN ac.nodes 0).children.map (fun cc => ([cc.1] : Str))).length +
      ([] : List Str).length +
      ((subPaths ac.nodes ac.nodes.length 0).filter (fun v => decide (2 ≤ v.length))).length <
      ac.nodes.length := by
    have hApath : ∀ v ∈ (getN ac.nodes 0).children.map (fun cc => ([cc.1] : Str)),
        (follow ac.nodes 0 v).isSome ∧ v.length = 1 := by
      intro v hv
      rcases List.mem_map.mp hv with ⟨cc, hcc, rfl⟩
      exact ⟨by rw [hfol1 cc hcc]; rfl, rfl⟩
    have hPpath : ∀ v ∈ (subPaths ac.nodes ac.nodes.length 0).filter
        (fun v => decide (2 ≤ v.length)), (follow ac.nodes 0 v).isSome ∧ 2 ≤ v.length := by
      intro v hv
      rw [List.mem_filter] at hv
      refine ⟨subPaths_sound hwf.keys_nodup ac.nodes.length 0 v hv.1, ?_⟩
      have := hv.2
      simpa using this
    have hndA : ((getN ac.nodes 0).children.map (fun cc => ([cc.1] : Str))).Nodup := by
      rw [List.nodup_map_iff_inj_on (hwf.keys_nodup 0).of_map]
      intro cc hcc cc' hcc' heq
      have h2 : cc.1 = cc'.1 := by simpa using heq
      exact ((List.nodup_map_iff_inj_on (hwf.keys_nodup 0).of_map).mp
        (hwf.keys_nodup 0)) cc hcc cc' hcc' h2
    have hndL : (((getN ac.nodes 0).children.map (fun cc => ([cc.1] : Str))) ++
        ((subPaths ac.nodes ac.nodes.length 0).filter
          (fun v => decide (2 ≤ v.length)))).Nodup := by
      rw [List.nodup_append]
      refine ⟨hndA, (subPaths_nodup hwf.keys_nodup ac.nodes.length 0).filter _, ?_⟩
      intro v hvA hvP
      have h1 := (hApath v hvA).2
      have h2 := (hPpath v hvP).2
      omega
    have hLpath : ∀ v ∈ (((getN ac.nodes 0).children.map (fun cc => ([cc.1] : Str))) ++
        ((subPaths ac.nodes ac.nodes.length 0).filter (fun v => decide (2 ≤ v.length)))),
        (follow ac.nodes 0 v).isSome ∧ 1 ≤ v.length := by
      intro v hv
      rcases List.mem_append.mp hv with hvA | hvP
      · have := hApath v hvA
        exact ⟨this.1, by omega⟩
      · have := hPpath v hvP
        exact ⟨this.1, by omega⟩
    have hmapnd : ((((getN ac.nodes 0).children.map (fun cc => ([cc.1] : Str))) ++
        ((subPaths ac.nodes ac.nodes.length 0).filter
          (fun v => decide (2 ≤ v.length)))).map (nodeAt ac.nodes)).Nodup := by
      rw [List.nodup_map_iff_inj_on hndL]
      intro v hv v' hv' heq
      exact nodeAt_inj hwf (hLpath v hv).1 (hLpath v' hv').1 heq
    have hsubF : ((((getN ac.nodes 0).children.map (fun cc => ([cc.1] : Str))) ++
        ((subPaths ac.nodes ac.nodes.length 0).filter
          (fun v => decide (2 ≤ v.length)))).map (nodeAt ac.nodes)).toFinset ⊆
        Finset.range ac.nodes.length \ {0} := by
      intro x hx
      rw [List.mem_toFinset, List.mem_map] at hx
      rcases hx with ⟨v, hv, rfl⟩
      rw [Finset.mem_sdiff, Finset.mem_range, Finset.mem_singleton]
      constructor
      · exact follow_lt hwf v 0 _ hwf.size_pos (follow_eq_nodeAt (hLpath v hv).1)
      · intro h0
        have : follow ac.nodes 0 v = some 0 := by
          rw [follow_eq_nodeAt (hLpath v hv).1, h0]
        have := follow_zero hwf v this
        rw [this] at hv
        have := (hLpath [] hv).2
        simp at this
    have hcard := Finset.card_le_card hsubF
    rw [List.toFinset_card_of_nodup hmapnd] at hcard
    rw [Finset.card_sdiff (by
      rw [Finset.singleton_subset_iff, Finset.mem_range]
      exact hwf.size_pos)] at hcard
    simp only [List.length_map, List.length_append, Finset.card_range,
      Finset.card_singleton] at hcard
    have hpos := hwf.size_pos
    simp only [List.length_nil, List.length_map]
    omega
  have hmain := bfsLoop_inv ac.nodes hwf ac.nodes.length 1
    ((getN ac.nodes 0).children.map (fun cc => ([cc.1] : Str))) []
    ((subPaths ac.nodes ac.nodes.length 0).filter (fun v => decide (2 ≤ v.length)))
    (((getN ac.nodes 0).children.map (fun x => x.2)).foldl
      (fun ns i => modN (fun nd => { nd with fail := some 0 }) ns i) ac.nodes) hinv hmeas
  have hqq : ((((getN ac.nodes 0).children.map
        (fun cc : Char × Nat => ([cc.1] : Str))) ++ []).map
      (nodeAt ac.nodes)) = (getN ac.nodes 0).children.map (fun x => x.2) := by
    rw [List.append_nil, List.map_map]
    apply List.map_congr_left
    intro cc hcc
    exact hnode1 cc hcc
  rw [hqq] at hmain
  show BfsDone ac.nodes (AhoCorasick.build ac).nodes
  simp only [AhoCorasick.build, hnb, Bool.false_eq_true, if_false]
  exact hmain

/-! ## Outputs after build and completeness of search -/

theorem addPattern_built (ac : AhoCorasick) (p : Str) (h : ac.built = false) :
    (ac.addPattern p).built = false := by
  unfold AhoCorasick.addPattern
  split
  · exact h
  · rfl

theorem addPatterns_built : ∀ (ps : List Str) (ac : AhoCorasick), ac.built = false →
    (ac.addPatterns ps).built = false
  | [], _, h => h
  | p :: ps, ac, h => addPatterns_built ps (ac.addPattern p) (addPattern_built ac p h)

/-- Every recorded pattern that is a suffix of a path `w` appears in the
post-build output list of the node at `w` (the outputs merged along failure
links collect all path-suffix patterns). -/
theorem out_complete (base fin : List ACNode) (hwf : TrieWF base)
    (hdone : BfsDone base fin) :
    ∀ (k : Nat) (w : Str), w.length ≤ k → (follow base 0 w).isSome →
      ∀ p, p <:+ w → InOut base p → p ∈ (getN fin (nodeAt base w)).output
  | 0, w, hk, _, p, hsuf, hio => by
    have hw : w = [] := List.length_eq_zero.mp (Nat.le_zero.mp hk)
    subst hw
    have hp : p = [] := List.suffix_nil.mp hsuf
    subst hp
    rcases hio with ⟨m, hm, hout⟩
    simp [follow] at hm
    subst hm
    rw [hwf.root_output] at hout
    exact absurd hout (by simp)
  | k + 1, w, hk, hwp, p, hsuf, hio => by
    by_cases hw : w = []
    · subst hw
      have hp : p = [] := List.suffix_nil.mp hsuf
      subst hp
      rcases hio with ⟨m, hm, hout⟩
      simp [follow] at hm
      subst hm
      rw [hwf.root_output] at hout
      exact absurd hout (by simp)
    · have hFO := hdone.2 w hwp (List.length_pos.mpr hw)
      rw [hFO.2]
      by_cases hpw : p = w
      · subst hpw
        rcases hio with ⟨m, hm, hout⟩
        have hnm : nodeAt base p = m := by simp [nodeAt, hm]
        exact List.mem_append.mpr (Or.inl (by rw [hnm]; exact hout))
      · have hpp : (follow base 0 p).isSome := by
          rcases hio with ⟨m, hm, _⟩
          rw [hm]
          rfl
        have hple := lps_maximal base w p hsuf hpw hpp
        have hsuf2 : p <:+ lps base w :=
          List.suffix_of_suffix_length_le hsuf (lps_suffix base w) hple
        have hlt := lps_length_lt base w hw
        exact List.mem_append.mpr (Or.inr
          (out_complete base fin hwf hdone k (lps base w) (by omega)
            (lps_path base w) p hsuf2 hio))

theorem pairwise_const {α : Type} {R : α → α → Prop} (h : ∀ a b, R a b) :
    ∀ l : List α, l.Pairwise R
  | [] => List.Pairwise.nil
  | x :: xs => List.Pairwise.cons (fun y _ => h x y) (pairwise_const h xs)

/-- `searchGo` emits records in ascending end-position order. -/
theorem searchGo_sorted (nodes : List ACNode) (fuel : Nat) :
    ∀ (t : Str) (i node : Nat),
      (searchGo nodes fuel t i node).Pairwise (fun a b => a.endPos ≤ b.endPos)
  | [], _, _ => by simp [searchGo]
  | c :: rest, i, node => by
    unfold searchGo
    cases hch : chaseNode nodes c fuel (some node) with
    | none => exact searchGo_sorted nodes fuel rest (i + 1) 0
    | some n =>
      rw [List.pairwise_append]
      refine ⟨?_, searchGo_sorted nodes fuel rest (i + 1) _, ?_⟩
      · rw [List.pairwise_map]
        exact pairwise_const (fun a b => Nat.le_refl _) _
      · intro a ha b hb
        rcases List.mem_map.mp ha with ⟨q, _, rfl⟩
        rcases searchGo_mem nodes fuel rest (i + 1) _ b hb with ⟨j, _, h1, _, h3, _⟩
        show i + 1 ≤ b.endPos
        omega

/-- Completeness of the scanning loop: with the automaton correctly built,
every recorded pattern occurring as a suffix of a processed prefix of the
text is reported, with the record's arithmetic fixed by the end position.
The node argument always equals the node of the longest path-suffix of the
consumed prefix. -/
theorem searchGo_complete (base fin : List ACNode) (hwf : TrieWF base)
    (hdone : BfsDone base fin) (fuel : Nat) (hfuel : base.length ≤ fuel) :
    ∀ (rest done p : Str) (j : Nat),
      InOut base p →
      done.length ≤ j → j < done.length + rest.length →
      p <:+ (done ++ rest).take (j + 1) →
      RawMatch.mk (j + 1 - p.length) (j + 1) p ∈
        searchGo fin fuel rest done.length
          (nodeAt base (longestPathSuffix base done))
  | [], done, p, j, _, hj1, hj2, _ => by
    simp at hj2
    omega
  | c :: rest, done, p, j, hio, hj1, hj2, hsuf => by
    have hu : (follow base 0 (longestPathSuffix base done)).isSome := (lpsf_spec base done).2
    have hUlen : (longestPathSuffix base done).length < fuel := by
      have := path_length_lt hwf _ hu
      omega
    have hF : ∀ v : Str, (follow base 0 v).isSome → 1 ≤ v.length →
        v.length ≤ (longestPathSuffix base done).length →
        (getN fin (nodeAt base v)).fail = some (nodeAt base (lps base v)) := by
      intro v hv h1 _
      exact (hdone.2 v hv h1).1
    have hchase := chaseNode_correct base fin hdone.1 (hwf.fail_none 0)
      (longestPathSuffix base done).length hF c fuel (longestPathSuffix base done) hu
      (Nat.le_refl _) hUlen
    have hsnoc : longestPathSuffix base (done ++ [c]) =
        longestPathSuffix base (longestPathSuffix base done ++ [c]) :=
      lpsf_snoc_eq base done c
    have hpne : p ≠ [] := by
      rcases hio with ⟨m, hm, hout⟩
      intro h
      subst h
      simp [follow] at hm
      subst hm
      rw [hwf.root_output] at hout
      exact absurd hout (by simp)
    have hpp : (follow base 0 p).isSome := by
      rcases hio with ⟨m, hm, _⟩
      rw [hm]
      rfl
    have htake : (done ++ c :: rest).take (done.length + 1) = done ++ [c] := by
      rw [List.take_append_eq_append_take]
      congr 1
      · exact List.take_of_length_le (by omega)
      · simp
    have hjlen : j < done.length + rest.length + 1 := by
      simp at hj2
      omega
    unfold searchGo
    rcases hchase with ⟨hnone, hempty⟩ | ⟨v, hv, hsome, hchild, hlpsf⟩
    · rw [hnone]
      have hjne : j ≠ done.length := by
        intro hj
        subst hj
        rw [htake] at hsuf
        have hmax := lpsf_maximal base (done ++ [c]) p hsuf hpp
        rw [hsnoc, hempty] at hmax
        simp at hmax
        exact hpne hmax
      have hrec := searchGo_complete base fin hwf hdone fuel hfuel rest (done ++ [c]) p j hio
        (by simp; omega) (by simp; omega) (by simpa using hsuf)
      have h0 : nodeAt base ([] : Str) = 0 := rfl
      rw [hsnoc, hempty, h0] at hrec
      simpa using hrec
    · rw [hsome]
      have hnode : longestPathSuffix base (done ++ [c]) = v ++ [c] := hsnoc.trans hlpsf
      have hchild2 : (lookupChild (getN fin (nodeAt base v)).children c).getD 0 =
          nodeAt base (v ++ [c]) := by
        have hcheq := hdone.1.2.1 (nodeAt base v)
        rw [hcheq]
        show (childOf base (nodeAt base v) c).getD 0 = _
        rw [hchild]
        rfl
      rcases Nat.eq_or_lt_of_le hj1 with rfl | hjlt
      · refine List.mem_append.mpr (Or.inl ?_)
        rw [hchild2]
        refine List.mem_map.mpr ⟨p, ?_, rfl⟩
        have hvcp : (follow base 0 (v ++ [c])).isSome := by
          rw [path_snoc hv hchild]
          rfl
        rw [htake] at hsuf
        have hmax := lpsf_maximal base (done ++ [c]) p hsuf hpp
        rw [hnode] at hmax
        have hsufv : p <:+ v ++ [c] :=
          List.suffix_of_suffix_length_le hsuf (hnode ▸ (lpsf_spec base (done ++ [c])).1) hmax
        exact out_complete base fin hwf hdone (v ++ [c]).length (v ++ [c]) (Nat.le_refl _)
          hvcp p hsufv hio
      · refine List.mem_append.mpr (Or.inr ?_)
        rw [hchild2]
        have hrec := searchGo_complete base fin hwf hdone fuel hfuel rest (done ++ [c]) p j hio
          (by simp; omega) (by simp; omega) (by simpa using hsuf)
        rw [hnode] at hrec
        simpa using hrec

/-- C1: for every set of patterns added to the automaton and every text,
`search(text)` reports every case-insensitive literal occurrence of every
added pattern, including fully overlapping and nested occurrences: an
occurrence of pattern `p` ending at index `j` of the text yields the record
`{start := j + 1 - |p|, end := j + 1, pattern := toLowerCase p}`.  Moreover
every reported record satisfies `start = end - |pattern|` and
`1 ≤ end ≤ |text|`, and the records are produced in ascending end-position
order. -/
theorem c1_search_reports_all (ps : List Str) (t : Str) (p : Str) (j : Nat)
    (hp : p ∈ ps) (hocc : occursEndingAt (jsToLower p) (jsToLower t) j) :
    RawMatch.mk (j + 1 - (jsToLower p).length) (j + 1) (jsToLower p) ∈
      (AhoCorasick.empty.addPatterns ps).search t ∧
    (∀ r ∈ (AhoCorasick.empty.addPatterns ps).search t,
      r.start = r.endPos - r.pattern.length ∧ 1 ≤ r.endPos ∧ r.endPos ≤ t.length) ∧
    ((AhoCorasick.empty.addPatterns ps).search t).Pairwise
      (fun a b => a.endPos ≤ b.endPos) := by
  obtain ⟨hne, hlen, hjt, heq⟩ := hocc
  have hwfp := addPatterns_props ps AhoCorasick.empty TrieWF_empty
  have hbuilt : (AhoCorasick.empty.addPatterns ps).built = false :=
    addPatterns_built ps _ rfl
  have hdone := build_done _ hwfp.1 hbuilt
  have hflen : (AhoCorasick.empty.addPatterns ps).build.nodes.length =
      (AhoCorasick.empty.addPatterns ps).nodes.length := hdone.1.1
  have hpne : p ≠ [] := by
    intro h
    subst h
    exact hne rfl
  have hio := hwfp.2.2 p hp hpne
  have htlen : (jsToLower t).length = t.length := by simp [jsToLower]
  have hsuffix : jsToLower p <:+ (jsToLower t).take (j + 1) := by
    have h1 : j + 1 - (jsToLower p).length + (jsToLower p).length = j + 1 := by omega
    have h2 : (jsToLower t).take (j + 1) =
        (jsToLower t).take (j + 1 - (jsToLower p).length) ++ jsToLower p := by
      conv_lhs => rw [← h1]
      rw [List.take_add, heq]
    exact ⟨(jsToLower t).take (j + 1 - (jsToLower p).length), h2.symm⟩
  have hlpsnil : longestPathSuffix (AhoCorasick.empty.addPatterns ps).nodes [] = [] := by
    simp [longestPathSuffix, List.tails, List.find?, follow]
  have hcomp := searchGo_complete (AhoCorasick.empty.addPatterns ps).nodes
    (AhoCorasick.empty.addPatterns ps).build.nodes hwfp.1 hdone
    (AhoCorasick.empty.addPatterns ps).build.nodes.length (le_of_eq hflen.symm)
    (jsToLower t) [] (jsToLower p) j hio (by simp) (by simpa using hjt)
    (by simpa using hsuffix)
  rw [hlpsnil] at hcomp
  refine ⟨?_, ?_, ?_⟩
  · exact hcomp
  · intro r hr
    rcases searchGo_mem _ _ _ _ _ r hr with ⟨j', ch, h1, h2, h3, h4, h5⟩
    refine ⟨by rw [h3, h4], by omega, by omega⟩
  · exact searchGo_sorted _ _ (jsToLower t) 0 0

/-- Witness for C1 at a concrete instance: scanning "ushers" for patterns
"he", "she", "hers" reports the occurrence of "she" ending at index 3. -/
theorem c1_witness :
    RawMatch.mk (3 + 1 - (jsToLower (str "she")).length) (3 + 1) (jsToLower (str "she")) ∈
      (AhoCorasick.empty.addPatterns [str "he", str "she", str "hers"]).search
        (str "ushers") ∧
    (∀ r ∈ (AhoCorasick.empty.addPatterns [str "he", str "she", str "hers"]).search
        (str "ushers"),
      r.start = r.endPos - r.pattern.length ∧ 1 ≤ r.endPos ∧
        r.endPos ≤ (str "ushers").length) ∧
    ((AhoCorasick.empty.addPatterns [str "he", str "she", str "hers"]).search
        (str "ushers")).Pairwise (fun a b => a.endPos ≤ b.endPos) :=
  c1_search_reports_all [str "he", str "she", str "hers"] (str "ushers") (str "she") 3
    (by decide) ⟨by decide, by decide, by decide, by decide⟩
